import Mathlib

set_option maxRecDepth 100000

/-!
Verification of the alias-resolution and image-classification engine of
`generate_report.py` (YoloMetricsWrap).

The Python code is shallowly embedded: Python strings are Lean `String`s, but
every string operation used by the program (`str.lower`, `str.startswith`,
`str.endswith`, `in`, concatenation, lexicographic comparison) is
re-implemented by structural recursion over the character list so that all
definitions evaluate inside the kernel.  Python `dict`s (which preserve
insertion order and update values in place) are embedded as association
lists with an order-preserving insert.  File contents are abstracted: a
`FileEntry` carries the file name and `content = some b` when the file is
readable (`b` stands for the base64 text of its bytes) or `content = none`
when opening/reading the file fails, which is exactly the distinction
`encode_image_to_data_url` exposes to its callers.
-/

/-! ## Python string primitives -/

/-- ASCII lowering of one character, as `str.lower` acts on the ASCII file
names handled by the program. -/
def pyCharLower (c : Char) : Char :=
  if 65 ≤ c.toNat ∧ c.toNat ≤ 90 then Char.ofNat (c.toNat + 32) else c

/-- Python `s.lower()`. -/
def pyLower (s : String) : String := String.mk (s.data.map pyCharLower)

/-- Character-list helper: does the second list begin the first one? -/
def prefAux : List Char → List Char → Bool
  | _, [] => true
  | [], _ :: _ => false
  | c :: s, p :: ps => c = p && prefAux s ps

/-- Python `s.startswith(pat)`. -/
def pyStartsWith (s pat : String) : Bool := prefAux s.data pat.data

/-- Python `s.endswith(pat)`. -/
def pyEndsWith (s pat : String) : Bool := prefAux s.data.reverse pat.data.reverse

/-- Character-list helper for substring search. -/
def subAux : List Char → List Char → Bool
  | [], pat => pat.isEmpty
  | c :: s, pat => prefAux (c :: s) pat || subAux s pat

/-- Python `pat in s` (substring containment). -/
def pyContains (s pat : String) : Bool := subAux s.data pat.data

/-- Lexicographic comparison of character lists by code point. -/
def lexLe : List Char → List Char → Bool
  | [], _ => true
  | _ :: _, [] => false
  | a :: as, b :: bs => if a = b then lexLe as bs else decide (a < b)

/-- Python `a <= b` on strings (lexicographic by code point); used to model
`list.sort(key=...)`. -/
def strLe (a b : String) : Bool := lexLe a.data b.data

/-- Stable insertion of `x` into `l`: `x` goes after every element `y` with
`le y x`, so folding `insertLe` over a list is a stable sort, the behaviour
guaranteed by Python `list.sort`. -/
def insertLe (le : α → α → Bool) (x : α) : List α → List α
  | [] => [x]
  | y :: ys => if le y x then y :: insertLe le x ys else x :: y :: ys

/-- Stable sort modelling Python `list.sort(key=...)` (any stable sorting
algorithm computes the same list). -/
def sortByLe (le : α → α → Bool) (l : List α) : List α :=
  l.foldl (fun acc x => insertLe le x acc) []

/-! ## Python ordered dictionaries as association lists -/

/-- Python `d.get(key)` / `d[key]` lookup. -/
def dget {α : Type} : List (String × α) → String → Option α
  | [], _ => none
  | kv :: rest, key => if kv.1 = key then some kv.2 else dget rest key

/-- Python `d[key] = val`: updates the value in place when the key exists
(keeping its position) and appends otherwise. -/
def dinsert {α : Type} : List (String × α) → String → α → List (String × α)
  | [], key, val => [(key, val)]
  | kv :: rest, key, val =>
    if kv.1 = key then (kv.1, val) :: rest else kv :: dinsert rest key val

/-! ## The alias table (`BASE_METRIC_STEMS`, `expand_with_box`,
`METRIC_ALIASES`, `ALLOWED_EXTS` of `generate_report.py`) -/

/-- `BASE_METRIC_STEMS` of `generate_report.py` (a dict in table order). -/
def BASE_METRIC_STEMS : List (String × List String) :=
  [ ("PR", ["pr_curve", "pr-curve", "prcurve", "precision_recall_curve",
            "precision-recall", "pr"]),
    ("P", ["p_curve", "p-curve", "pcurve", "precision_curve", "precision",
           "boxpcurve"]),
    ("R", ["r_curve", "r-curve", "rcurve", "recall_curve", "recall"]),
    ("F1", ["f1_curve", "f1-curve", "f1curve", "f1"]),
    ("CM", ["confusion_matrix", "confusion-matrix", "cm"]),
    ("CM_N", ["confusion_matrix_normalized",
              "confusion-matrix-normalized",
              "normalized_confusion_matrix",
              "confusion_matrix_norm",
              "confusion-matrix-norm",
              "confusionmatrix_normalized",
              "confusionmatrix-normalized",
              "confusion_matrix_normalised",
              "confusion-matrix-normalised",
              "cm_normalized",
              "cm_norm",
              "cm-normalized",
              "cm-norm"]) ]

/-- The four variants `(s, f"box{s}", f"box_{s}", f"box-{s}")` generated for
one base stem inside `expand_with_box`. -/
def boxVariants (s : String) : List String :=
  [s, "box" ++ s, "box_" ++ s, "box-" ++ s]

/-- One step of the `seen`/`variants` accumulation in `expand_with_box`:
skip the variant when its lowering was already seen, otherwise record the
lowering and append the variant with its original casing. -/
def expandStep (acc : List String × List String) (v : String) :
    List String × List String :=
  if pyLower v ∈ acc.1 then acc else (acc.1 ++ [pyLower v], acc.2 ++ [v])

/-- `expand_with_box` of `generate_report.py`. -/
def expand_with_box (stems : List String) : List String :=
  (stems.foldl (fun acc s => (boxVariants s).foldl expandStep acc) ([], [])).2

/-- `METRIC_ALIASES = {k: expand_with_box(v) for k, v in BASE_METRIC_STEMS.items()}`. -/
def METRIC_ALIASES : List (String × List String) :=
  BASE_METRIC_STEMS.map (fun kv => (kv.1, expand_with_box kv.2))

/-- `METRIC_ALIASES[k]`. -/
def aliasStems (k : String) : List String := (dget METRIC_ALIASES k).getD []

/-- `ALLOWED_EXTS` of `generate_report.py`. -/
def ALLOWED_EXTS : List String := [".png", ".jpg", ".jpeg", ".webp", ".svg"]

/-- `ALLOWED_EXTS[0]`. -/
def primaryExt : String := ALLOWED_EXTS.headD ""

/-! ## Files and image encoding -/

/-- One file of a configuration directory.  `content = some b` abstracts a
readable file whose base64-encoded bytes are `b`; `content = none` models a
file whose open/read raises (the `except` branch of
`encode_image_to_data_url`). -/
structure FileEntry where
  name : String
  content : Option String
deriving DecidableEq

/-- Model of `pathlib.Path.suffix` for ordinary file names: the final
dot-suffix, empty when the name has no dot (or only a leading one). -/
def pathSuffix (name : String) : String :=
  match name.data with
  | [] => ""
  | _ :: rest =>
    if ('.' ∈ rest) then
      String.mk ('.' :: (rest.reverse.takeWhile (fun d => d ≠ '.')).reverse)
    else ""

/-- `guess_mime_type` of `generate_report.py`. -/
def guess_mime_type (name : String) : String :=
  let suf := pyLower (pathSuffix name)
  if suf = ".png" then "image/png"
  else if suf = ".jpg" ∨ suf = ".jpeg" then "image/jpeg"
  else if suf = ".webp" then "image/webp"
  else if suf = ".svg" then "image/svg+xml"
  else "application/octet-stream"

/-- `encode_image_to_data_url` of `generate_report.py`: `none` when the file
cannot be read, otherwise the `data:` URL built from the mime type and the
base64 text. -/
def encode_image_to_data_url (f : FileEntry) : Option String :=
  match f.content with
  | none => none
  | some b64 => some ("data:" ++ guess_mime_type f.name ++ ";base64," ++ b64)

/-! ## Metric resolution (`collect_config_images`, lines 96-123) -/

/-- The snapshot `present = {f.name.lower(): f for f in cfg_dir.iterdir() if f.is_file()}`,
 built in file-listing order. -/
def mkPresent (files : List FileEntry) : List (String × FileEntry) :=
  files.foldl (fun m f => dinsert m (pyLower f.name) f) []

/-- The inner extension loop of the resolver: the first extension whose
candidate `stem+ext` exists (case-insensitively) in `present` yields
`(encode_image_to_data_url f, ext)` — the loop breaks on existence, before
knowing whether the encode succeeded. -/
def tryExts (present : List (String × FileEntry)) (stem : String) :
    List String → Option (Option String × String)
  | [] => none
  | ext :: rest =>
    match dget present (pyLower (stem ++ ext)) with
    | some f => some (encode_image_to_data_url f, ext)
    | none => tryExts present stem rest

/-- The outer stem loop of the resolver.  `fe` threads the running value of
`found_ext`: when a candidate exists but fails to encode, the stem loop
continues with `found_ext` left set (`if data_url: break` is false), exactly
as in the source. -/
def resolveStems (present : List (String × FileEntry)) :
    List String → Option String → Option String × Option String
  | [], fe => (none, fe)
  | stem :: rest, fe =>
    match tryExts present stem ALLOWED_EXTS with
    | some (some u, ext) => (some u, some ext)
    | some (none, ext) => resolveStems present rest (some ext)
    | none => resolveStems present rest fe

/-- The duck-typed values stored in the `images` dict: a single data URL (or
`None`), a flat gallery, or a categorized gallery. -/
inductive ImageVal where
  | single (u : Option String)
  | gallery (xs : List String)
  | catGallery (m : List (String × List String))
deriving DecidableEq

/-- Recording of one resolved metric (lines 100-118): store the result under
the canonical `.png` key, and additionally under `stems[0] + found_ext` when
an extension other than `.png` was discovered. -/
def storeMetric (present : List (String × FileEntry))
    (images : List (String × ImageVal)) (stems : List String) :
    List (String × ImageVal) :=
  let r := resolveStems present stems none
  let canonical_png_key := stems.headD "" ++ primaryExt
  let images1 := dinsert images canonical_png_key (ImageVal.single r.1)
  match r.2 with
  | some fext =>
    if fext ≠ primaryExt then
      dinsert images1 (stems.headD "" ++ fext) (ImageVal.single r.1)
    else images1
  | none => images1

/-- The metric loop `for metric_key, stems in METRIC_ALIASES.items()`. -/
def resolveAllMetrics (present : List (String × FileEntry)) :
    List (String × ImageVal) :=
  METRIC_ALIASES.foldl (fun imgs kv => storeMetric present imgs kv.2) []

/-- Python `images.get(k) is None`: true when the key is missing or holds the
value `None`. -/
def getIsNone (images : List (String × ImageVal)) (k : String) : Bool :=
  match dget images k with
  | none => true
  | some (ImageVal.single none) => true
  | _ => false

/-- `cm_key = METRIC_ALIASES["CM"][0] + ALLOWED_EXTS[0]` (line 120). -/
def cm_key : String := (aliasStems "CM").headD "" ++ primaryExt

/-- `cmn_key = METRIC_ALIASES["CM_N"][0] + ALLOWED_EXTS[0]` (line 121). -/
def cmn_key : String := (aliasStems "CM_N").headD "" ++ primaryExt

/-- The CM → CM_N fallback (lines 119-123). -/
def applyCmFallback (images : List (String × ImageVal)) :
    List (String × ImageVal) :=
  if getIsNone images cmn_key && !getIsNone images cm_key then
    match dget images cm_key with
    | some v => dinsert images cmn_key v
    | none => images
  else images

/-! ## Galleries (`collect_config_images`, lines 125-156) -/

/-- One iteration of the gallery-classification loop (lines 129-141): skip
files without an accepted extension, skip files whose encoding fails, then
test the `val_batch`/`_labels` rule first, the `val_batch`/`_pred` rule
second, and fall through to the generic `all_imgs` list. -/
def stepClassify (acc : List String × List String × List String)
    (p : String × FileEntry) : List String × List String × List String :=
  let name := p.1
  if !(ALLOWED_EXTS.any (fun ext => pyEndsWith name ext)) then acc
  else
    let lower := pyLower name
    match encode_image_to_data_url p.2 with
    | none => acc
    | some url =>
      if pyStartsWith lower "val_batch" && pyContains lower "_labels" then
        (acc.1 ++ [url], acc.2.1, acc.2.2)
      else if pyStartsWith lower "val_batch" && pyContains lower "_pred" then
        (acc.1, acc.2.1 ++ [url], acc.2.2)
      else (acc.1, acc.2.1, acc.2.2 ++ [url])

/-- The classification loop over `present.items()` (lines 129-141): one
fold producing `(val_labels, val_preds, all_imgs)`. -/
def classifyGalleries (present : List (String × FileEntry)) :
    List String × List String × List String :=
  present.foldl stepClassify ([], [], [])

/-- Python `m.setdefault(key, []).append(item)`. -/
def setdefaultAppend (m : List (String × List String)) (k : String)
    (v : String) : List (String × List String) :=
  match dget m k with
  | some xs => dinsert m k (xs ++ [v])
  | none => m ++ [(k, [v])]

/-- The regrouping of a gallery into sequential `batch_N` keys
(lines 144-149 / 152-155). -/
def regroupBatches (xs : List String) : List (String × List String) :=
  xs.foldl
    (fun m item =>
      setdefaultAppend m ("batch_" ++ Nat.repr (m.length + 1)) item) []

/-- Storing the galleries into `images` (lines 142-156).  `all_imgs` is
computed by `classifyGalleries` but — exactly as in the source — never
stored. -/
def addGalleries (present : List (String × FileEntry))
    (images : List (String × ImageVal)) : List (String × ImageVal) :=
  let cls := classifyGalleries present
  let val_labels := cls.1
  let val_preds := cls.2.1
  let images1 :=
    if val_labels ≠ [] then
      let labels_map := regroupBatches val_labels
      dinsert images "VAL_LABELS"
        (if labels_map ≠ [] then ImageVal.catGallery labels_map
         else ImageVal.gallery val_labels)
    else images
  if val_preds ≠ [] then
    let preds_map := regroupBatches val_preds
    dinsert images1 "VAL_PRED"
      (if preds_map ≠ [] then ImageVal.catGallery preds_map
       else ImageVal.gallery val_preds)
  else images1

/-- The whole per-configuration body of `collect_config_images`: build the
`present` snapshot, resolve every metric, apply the CM fallback, store the
galleries. -/
def buildConfigImages (files : List FileEntry) : List (String × ImageVal) :=
  let present := mkPresent files
  addGalleries present (applyCmFallback (resolveAllMetrics present))

/-- The internal `all_imgs` list (generic gallery) accumulated for a
configuration directory. -/
def genericGallery (files : List FileEntry) : List String :=
  (classifyGalleries (mkPresent files)).2.2

/-- `ConfigImages` of `generate_report.py`. -/
structure ConfigImages where
  config_name : String
  images : List (String × ImageVal)
deriving DecidableEq

/-! ## Directory tree, `collect_config_images` and `discover_runs` -/

/-- A directory: its name, its direct files and its direct subdirectories. -/
inductive DirNode where
  | node (name : String) (files : List FileEntry) (subdirs : List DirNode)

/-- Name of a directory. -/
def DirNode.name : DirNode → String
  | .node n _ _ => n

/-- Direct files of a directory. -/
def DirNode.files : DirNode → List FileEntry
  | .node _ fs _ => fs

/-- Direct subdirectories of a directory. -/
def DirNode.subdirs : DirNode → List DirNode
  | .node _ _ ds => ds

/-- `collect_config_images` of `generate_report.py`: list the `*_config`
subdirectories, sort them case-insensitively by name, and build one
`ConfigImages` per configuration directory. -/
def collect_config_images (dir : DirNode) : List ConfigImages :=
  let config_dirs := dir.subdirs.filter (fun p => pyEndsWith p.name "_config")
  let sorted := sortByLe
    (fun a b => strLe (pyLower (DirNode.name a)) (pyLower (DirNode.name b)))
    config_dirs
  sorted.map (fun cfg => ⟨cfg.name, buildConfigImages cfg.files⟩)

/-- `is_run_dir` of `discover_runs`: the directory directly contains at
least one `*_config` subdirectory. -/
def is_run_dir (p : DirNode) : Bool :=
  p.subdirs.any (fun c => pyEndsWith c.name "_config")

/-- `RunGroup` of `generate_report.py` (`run_path` kept as the path
string). -/
structure RunGroup where
  run_name : String
  run_path : String
  configs : List ConfigImages
deriving DecidableEq

/-- One iteration of the de-duplicating run-collection loop of
`discover_runs` (lines 180-187): the accumulator pairs the `seen` path set
with the collected runs; a candidate whose path was seen is skipped, the
path is then marked seen, and the run is kept only when it resolved at
least one configuration. -/
def discoverStep (acc : List String × List RunGroup)
    (c : String × String × DirNode) : List String × List RunGroup :=
  if c.2.1 ∈ acc.1 then acc
  else
    let configs := collect_config_images c.2.2
    if configs ≠ [] then
      (c.2.1 :: acc.1, acc.2 ++ [⟨c.1, c.2.1, configs⟩])
    else (c.2.1 :: acc.1, acc.2)

/-- `discover_runs` of `generate_report.py`.  `rootPath` is `str(root)`;
a child's path is `rootPath ++ "/" ++ child.name`, which is how
`pathlib` forms and compares the `Path` values used for de-duplication. -/
def discover_runs (rootPath : String) (root : DirNode) : List RunGroup :=
  let candidates : List (String × String × DirNode) :=
    (if is_run_dir root then
       [((if root.name = "" then rootPath else root.name), rootPath, root)]
     else [])
    ++ root.subdirs.filterMap
         (fun child =>
           if is_run_dir child then
             some (child.name, rootPath ++ "/" ++ child.name, child)
           else none)
  let runs :=
    (candidates.foldl discoverStep
      (([] : List String), ([] : List RunGroup))).2
  sortByLe (fun a b => strLe (pyLower a.run_name) (pyLower b.run_name)) runs

/-! ## The alias payload (`generate_html_multi`, lines 315-319) -/

/-- The `canonical` field of the embedded alias payload:
`{k: BASE_METRIC_STEMS[k][0] + ALLOWED_EXTS[0] for k in BASE_METRIC_STEMS}`. -/
def payload_canonical : List (String × String) :=
  BASE_METRIC_STEMS.map (fun kv => (kv.1, kv.2.headD "" ++ primaryExt))

/-- The canonical output keys the resolver actually uses:
`METRIC_ALIASES[k][0] + ALLOWED_EXTS[0]`. -/
def resolver_canonical : List (String × String) :=
  METRIC_ALIASES.map (fun kv => (kv.1, kv.2.headD "" ++ primaryExt))

/-! ## Specification-side reference definitions -/

/-- Modelled from the spec (§4.1): generate all four box variants of every
base stem, in base order. -/
def flatVariants (stems : List String) : List String :=
  stems.flatMap boxVariants

/-- Modelled from the spec (§4.1): fold a list of stems into a final list,
comparing case-insensitively, dropping duplicates and keeping the first
occurrence's original casing. -/
def dedupCIAux (seen : List String) : List String → List String
  | [] => []
  | s :: rest =>
    if pyLower s ∈ seen then dedupCIAux seen rest
    else s :: dedupCIAux (pyLower s :: seen) rest

/-- Case-insensitive first-occurrence de-duplication (spec §4.1 wording). -/
def dedupCI (l : List String) : List String := dedupCIAux [] l

/-- Modelled from the spec (§4.2): the first extension, in `ALLOWED_EXTS`
order, whose candidate `stem+ext` exists case-insensitively in the lookup. -/
def firstMatchExts (present : List (String × FileEntry)) (stem : String) :
    List String → Option (String × FileEntry)
  | [] => none
  | ext :: rest =>
    match dget present (pyLower (stem ++ ext)) with
    | some f => some (ext, f)
    | none => firstMatchExts present stem rest

/-- Modelled from the spec (§4.2): first-match-wins in stem-major,
extension-minor order. -/
def firstMatch (present : List (String × FileEntry)) :
    List String → Option (String × String × FileEntry)
  | [] => none
  | stem :: rest =>
    match firstMatchExts present stem ALLOWED_EXTS with
    | some (ext, f) => some (stem, ext, f)
    | none => firstMatch present rest

/-- Modelled from the spec (§4.3): the categorized mapping with synthetic
sequential keys `batch_(off+1), batch_(off+2), …`, each holding exactly one
image, in encounter order. -/
def seqFrom (off : Nat) : List String → List (String × List String)
  | [] => []
  | x :: xs => ("batch_" ++ Nat.repr (off + 1), [x]) :: seqFrom (off + 1) xs

/-- The decimal digits of `n`, most significant first, as characters
(reference definition used to reason about `Nat.repr`). -/
def decChars (n : Nat) : List Char :=
  if _h : n < 10 then [Nat.digitChar n]
  else decChars (n / 10) ++ [Nat.digitChar (n % 10)]
termination_by n
decreasing_by
  have h1 : 0 < n := by omega
  exact Nat.div_lt_self h1 (by norm_num)

/-- Modelled from the spec (§4.3): the per-file outcome of the LABELED
classification rule - the encoded image of every readable file with an
accepted extension whose lowercased name starts with `val_batch` and
contains `_labels`, in encounter order. -/
def labeledOf (present : List (String × FileEntry)) : List String :=
  present.filterMap (fun p =>
    if ALLOWED_EXTS.any (fun ext => pyEndsWith p.1 ext) then
      match encode_image_to_data_url p.2 with
      | some url =>
        if pyStartsWith (pyLower p.1) "val_batch" &&
            pyContains (pyLower p.1) "_labels" then some url else none
      | none => none
    else none)

/-! # Lemmas -/

/-! ## Dictionary lemmas -/

theorem dget_dinsert {α : Type} (m : List (String × α)) (k key : String)
    (v : α) :
    dget (dinsert m k v) key = if key = k then some v else dget m key := by
  induction m with
  | nil =>
    by_cases h : key = k
    · subst h; simp [dget, dinsert]
    · have h2 : k ≠ key := fun h2 => h h2.symm
      simp [dget, dinsert, h, h2]
  | cons kv rest ih =>
    by_cases h1 : kv.1 = k
    · by_cases h : key = k
      · subst h; simp [dget, dinsert, h1]
      · have h2 : kv.1 ≠ key := fun h2 => h (h2.symm.trans h1)
        have h3 : k ≠ key := fun h3 => h h3.symm
        simp [dget, dinsert, h1, h, h2, h3]
    · by_cases h : key = k
      · subst h; simp [dget, dinsert, h1, ih]
      · simp [dget, dinsert, h1, h, ih]

theorem dget_dinsert_self {α : Type} (m : List (String × α)) (k : String)
    (v : α) : dget (dinsert m k v) k = some v := by
  simp [dget_dinsert]

theorem dget_dinsert_ne {α : Type} (m : List (String × α)) (k key : String)
    (v : α) (h : key ≠ k) : dget (dinsert m k v) key = dget m key := by
  simp [dget_dinsert, h]

theorem dget_append_left {α : Type} (m1 m2 : List (String × α)) (key : String)
    (h : dget m1 key = none) : dget (m1 ++ m2) key = dget m2 key := by
  induction m1 with
  | nil => simp
  | cons kv rest ih =>
    rw [List.cons_append]
    by_cases h1 : kv.1 = key
    · exfalso; simp [dget, h1] at h
    · simp only [dget] at h ⊢
      rw [if_neg h1] at h ⊢
      exact ih h

theorem dget_mem {α : Type} (m : List (String × α)) (key : String) (v : α)
    (h : dget m key = some v) : (key, v) ∈ m := by
  induction m with
  | nil => simp [dget] at h
  | cons kv rest ih =>
    simp only [dget] at h
    by_cases h1 : kv.1 = key
    · rw [if_pos h1] at h
      have h2 : kv.2 = v := by injection h
      obtain ⟨a, b⟩ := kv
      simp only at h1 h2
      subst h1; subst h2
      exact List.mem_cons_self _ _
    · rw [if_neg h1] at h
      exact List.mem_cons_of_mem _ (ih h)

theorem dget_isSome_of_mem_keys {α : Type} (m : List (String × α))
    (key : String) (h : key ∈ m.map Prod.fst) : (dget m key).isSome := by
  induction m with
  | nil => simp at h
  | cons kv rest ih =>
    by_cases h1 : kv.1 = key
    · simp [dget, h1]
    · simp only [List.map_cons, List.mem_cons] at h
      rcases h with h | h
      · exact absurd h.symm h1
      · simp only [dget]
        rw [if_neg h1]
        exact ih h

theorem dget_none_of_not_mem_keys {α : Type} (m : List (String × α))
    (key : String) (h : key ∉ m.map Prod.fst) : dget m key = none := by
  induction m with
  | nil => simp [dget]
  | cons kv rest ih =>
    simp only [List.map_cons, List.mem_cons] at h
    push_neg at h
    have h1 : kv.1 ≠ key := fun h2 => h.1 h2.symm
    simp only [dget]
    rw [if_neg h1]
    exact ih h.2

theorem keys_dinsert {α : Type} (m : List (String × α)) (k : String) (v : α) :
    (dinsert m k v).map Prod.fst =
      if (dget m k).isSome then m.map Prod.fst else m.map Prod.fst ++ [k] := by
  induction m with
  | nil => simp [dinsert, dget]
  | cons kv rest ih =>
    by_cases h1 : kv.1 = k
    · simp [dinsert, dget, h1]
    · simp [dinsert, dget, h1, ih]
      by_cases h2 : (dget rest k).isSome
      · simp [h2]
      · simp [h2]

theorem nodup_keys_dinsert {α : Type} (m : List (String × α)) (k : String)
    (v : α) (h : (m.map Prod.fst).Nodup) :
    ((dinsert m k v).map Prod.fst).Nodup := by
  rw [keys_dinsert]
  by_cases h2 : (dget m k).isSome
  · rw [if_pos h2]; exact h
  · rw [if_neg h2]
    refine h.append (List.nodup_singleton k) ?_
    intro a ha hb
    rw [List.mem_singleton] at hb
    subst hb
    exact h2 (dget_isSome_of_mem_keys m a ha)

/-! ## Lemmas about `expand_with_box` -/

theorem foldl_expandStep_flat (stems : List String)
    (acc : List String × List String) :
    stems.foldl (fun a s => (boxVariants s).foldl expandStep a) acc =
      (flatVariants stems).foldl expandStep acc := by
  induction stems generalizing acc with
  | nil => simp [flatVariants]
  | cons s rest ih =>
    simp only [List.foldl_cons, flatVariants, List.flatMap_cons,
      List.foldl_append] at ih ⊢
    exact ih _

theorem dedupCIAux_congr (l : List String) :
    ∀ s1 s2 : List String, (∀ x, x ∈ s1 ↔ x ∈ s2) →
      dedupCIAux s1 l = dedupCIAux s2 l := by
  induction l with
  | nil => intro s1 s2 _; rfl
  | cons v rest ih =>
    intro s1 s2 hset
    simp only [dedupCIAux]
    by_cases hmem : pyLower v ∈ s1
    · rw [if_pos hmem, if_pos ((hset _).mp hmem)]
      exact ih s1 s2 hset
    · rw [if_neg hmem, if_neg (fun h2 => hmem ((hset _).mpr h2))]
      rw [ih (pyLower v :: s1) (pyLower v :: s2)
        (fun x => by simp [hset x])]

theorem foldl_expandStep_dedup (l : List String) :
    ∀ seen vs : List String,
      (l.foldl expandStep (seen, vs)).2 = vs ++ dedupCIAux seen l := by
  induction l with
  | nil => intro seen vs; simp [dedupCIAux]
  | cons v rest ih =>
    intro seen vs
    simp only [List.foldl_cons, dedupCIAux, expandStep]
    by_cases hmem : pyLower v ∈ seen
    · rw [if_pos hmem, if_pos hmem]
      exact ih seen vs
    · rw [if_neg hmem, if_neg hmem]
      rw [ih (seen ++ [pyLower v]) (vs ++ [v])]
      rw [dedupCIAux_congr rest (seen ++ [pyLower v]) (pyLower v :: seen)
        (fun x => by simp [or_comm])]
      simp

theorem expand_with_box_eq_dedupCI (stems : List String) :
    expand_with_box stems = dedupCI (flatVariants stems) := by
  rw [expand_with_box, foldl_expandStep_flat, dedupCI]
  exact foldl_expandStep_dedup (flatVariants stems) [] []

theorem mem_lower_dedupCIAux (l : List String) :
    ∀ (seen : List String) (x : String),
      x ∈ (dedupCIAux seen l).map pyLower ↔
        (x ∈ l.map pyLower ∧ x ∉ seen) := by
  induction l with
  | nil => intro seen x; simp [dedupCIAux]
  | cons v rest ih =>
    intro seen x
    simp only [dedupCIAux]
    by_cases hmem : pyLower v ∈ seen
    · rw [if_pos hmem]
      rw [ih seen x]
      simp only [List.map_cons, List.mem_cons]
      constructor
      · rintro ⟨h1, h2⟩; exact ⟨Or.inr h1, h2⟩
      · rintro ⟨h1 | h1, h2⟩
        · subst h1; exact absurd hmem h2
        · exact ⟨h1, h2⟩
    · rw [if_neg hmem]
      simp only [List.map_cons, List.mem_cons, ih (pyLower v :: seen) x]
      constructor
      · rintro (h1 | ⟨h1, h2⟩)
        · subst h1; exact ⟨Or.inl rfl, hmem⟩
        · refine ⟨Or.inr h1, ?_⟩
          intro h3; exact h2 (Or.inr h3)
      · rintro ⟨h1 | h1, h2⟩
        · exact Or.inl h1
        · by_cases h3 : x = pyLower v
          · exact Or.inl h3
          · refine Or.inr ⟨h1, ?_⟩
            rintro (h5 | h5)
            · exact h3 h5
            · exact h2 h5

theorem nodup_lower_dedupCIAux (l : List String) :
    ∀ seen : List String, ((dedupCIAux seen l).map pyLower).Nodup := by
  induction l with
  | nil => intro seen; simp [dedupCIAux]
  | cons v rest ih =>
    intro seen
    simp only [dedupCIAux]
    by_cases hmem : pyLower v ∈ seen
    · rw [if_pos hmem]; exact ih seen
    · rw [if_neg hmem]
      simp only [List.map_cons, List.nodup_cons]
      refine ⟨?_, ih (pyLower v :: seen)⟩
      intro h
      rw [mem_lower_dedupCIAux] at h
      exact h.2 (List.mem_cons_self _ _)

theorem dedupCIAux_of_nodup (l : List String) :
    ∀ seen : List String, (l.map pyLower).Nodup →
      (∀ x ∈ l.map pyLower, x ∉ seen) → dedupCIAux seen l = l := by
  induction l with
  | nil => intro seen _ _; rfl
  | cons v rest ih
  =>
    intro seen hnodup hdisj
    simp only [List.map_cons, List.nodup_cons] at hnodup
    simp only [dedupCIAux]
    rw [if_neg (hdisj (pyLower v) (by simp))]
    rw [ih (pyLower v :: seen) hnodup.2]
    intro x hx
    intro h2
    rcases List.mem_cons.mp h2 with h3 | h3
    · exact hnodup.1 (h3 ▸ hx)
    · exact hdisj x (List.mem_cons_of_mem _ hx) h3

theorem string_data_append (a b : String) : (a ++ b).data = a.data ++ b.data := rfl

theorem boxVariants_lower_nodup (s : String) :
    ((boxVariants s).map pyLower).Nodup := by
  have hb1 : ("box" ++ s).data = 'b' :: 'o' :: 'x' :: s.data := by
    rw [string_data_append]; rfl
  have hb2 : ("box_" ++ s).data = 'b' :: 'o' :: 'x' :: '_' :: s.data := by
    rw [string_data_append]; rfl
  have hb3 : ("box-" ++ s).data = 'b' :: 'o' :: 'x' :: '-' :: s.data := by
    rw [string_data_append]; rfl
  have hlen : ∀ t u : String, pyLower t = pyLower u →
      t.data.length = u.data.length := by
    intro t u h
    have h2 : t.data.map pyCharLower = u.data.map pyCharLower :=
      congrArg String.data h
    have h3 := congrArg List.length h2
    simpa using h3
  have ne1 : pyLower s ≠ pyLower ("box" ++ s) := by
    intro h
    have := hlen _ _ h
    rw [hb1] at this
    simp at this
    omega
  have ne2 : pyLower s ≠ pyLower ("box_" ++ s) := by
    intro h
    have := hlen _ _ h
    rw [hb2] at this
    simp at this
    omega
  have ne3 : pyLower s ≠ pyLower ("box-" ++ s) := by
    intro h
    have := hlen _ _ h
    rw [hb3] at this
    simp at this
    omega
  have ne4 : pyLower ("box" ++ s) ≠ pyLower ("box_" ++ s) := by
    intro h
    have := hlen _ _ h
    rw [hb1, hb2] at this
    simp at this
  have ne5 : pyLower ("box" ++ s) ≠ pyLower ("box-" ++ s) := by
    intro h
    have := hlen _ _ h
    rw [hb1, hb3] at this
    simp at this
  have ne6 : pyLower ("box_" ++ s) ≠ pyLower ("box-" ++ s) := by
    intro h
    have h2 : ("box_" ++ s).data.map pyCharLower =
        ("box-" ++ s).data.map pyCharLower := congrArg String.data h
    rw [hb2, hb3] at h2
    simp only [List.map_cons] at h2
    injection h2 with e1 h2
    injection h2 with e2 h2
    injection h2 with e3 h2
    injection h2 with e4 h2
    exact absurd e4 (by decide)
  simp only [boxVariants, List.map_cons, List.map_nil, List.nodup_cons,
    List.mem_cons, List.not_mem_nil, or_false, List.mem_singleton]
  push_neg
  exact ⟨⟨ne1, ne2, ne3⟩, ⟨ne4, ne5⟩, ne6, not_false, List.nodup_nil⟩

theorem expand_with_box_single (s : String) :
    expand_with_box [s] = boxVariants s := by
  rw [expand_with_box_eq_dedupCI]
  have h1 : flatVariants [s] = boxVariants s := by
    simp [flatVariants]
  rw [h1, dedupCI]
  exact dedupCIAux_of_nodup _ [] (boxVariants_lower_nodup s) (by simp)

theorem flatVariants_length (stems : List String) :
    (flatVariants stems).length = 4 * stems.length := by
  induction stems with
  | nil => simp [flatVariants]
  | cons s rest ih =>
    simp only [flatVariants, List.flatMap_cons, List.length_append,
      List.length_cons] at ih ⊢
    simp [boxVariants, ih]
    omega

theorem expand_with_box_length_card (stems : List String) :
    (expand_with_box stems).length =
      ((flatVariants stems).map pyLower).toFinset.card := by
  rw [expand_with_box_eq_dedupCI]
  have h1 : (dedupCI (flatVariants stems)).length =
      ((dedupCI (flatVariants stems)).map pyLower).length := by simp
  have h2 : ((dedupCI (flatVariants stems)).map pyLower).toFinset =
      ((flatVariants stems).map pyLower).toFinset := by
    ext x
    simp only [List.mem_toFinset]
    rw [dedupCI, mem_lower_dedupCIAux]
    simp
  have h3 : ((dedupCI (flatVariants stems)).map pyLower).Nodup :=
    nodup_lower_dedupCIAux (flatVariants stems) []
  calc (dedupCI (flatVariants stems)).length
      = ((dedupCI (flatVariants stems)).map pyLower).length := h1
    _ = ((dedupCI (flatVariants stems)).map pyLower).toFinset.card :=
        (List.toFinset_card_of_nodup h3).symm
    _ = ((flatVariants stems).map pyLower).toFinset.card := by rw [h2]

/-! # Claim theorems: alias-table expansion (C2, C10) -/

/-- C2: for every list of base stems, `expand_with_box` emits, per base stem
`s`, exactly the variants `s, box{s}, box_{s}, box-{s}` in that order and
then de-duplicates case-insensitively keeping the first occurrence's casing
(conjunct 1); the result contains no two entries equal up to case
(conjunct 2); re-running the de-duplication pass changes nothing
(conjunct 3); the result retains exactly the case-insensitive variants
(conjunct 4); the generated list has length `4 * len(base_stems)`
(conjunct 5) and the result keeps one entry per distinct lowering, i.e. its
length is `4 * len(base_stems)` minus the number of collisions (conjunct 6);
a single base stem never collides with its own box variants, so all
collisions are cross-base (conjunct 7). -/
theorem expand_with_box_spec (stems : List String) :
    expand_with_box stems = dedupCI (flatVariants stems) ∧
    ((expand_with_box stems).map pyLower).Nodup ∧
    dedupCI (expand_with_box stems) = expand_with_box stems ∧
    (∀ x, x ∈ (expand_with_box stems).map pyLower ↔
        x ∈ (flatVariants stems).map pyLower) ∧
    (flatVariants stems).length = 4 * stems.length ∧
    (expand_with_box stems).length =
      ((flatVariants stems).map pyLower).toFinset.card ∧
    (∀ s : String, (expand_with_box [s]).length = 4) := by
  have h1 := expand_with_box_eq_dedupCI stems
  have h2 : ((expand_with_box stems).map pyLower).Nodup := by
    rw [h1]
    exact nodup_lower_dedupCIAux (flatVariants stems) []
  refine ⟨h1, h2, ?_, ?_, flatVariants_length stems,
    expand_with_box_length_card stems, ?_⟩
  · exact dedupCIAux_of_nodup _ [] h2 (by simp)
  · intro x
    rw [h1]
    have := mem_lower_dedupCIAux (flatVariants stems) [] x
    rw [dedupCI]
    simp only [this]
    simp
  · intro s
    simp [expand_with_box_single, boxVariants]

/-- Witness for C2 at a concrete stem list (the P table row). -/
theorem expand_with_box_spec_witness :
    expand_with_box ["p_curve", "boxpcurve"] =
      dedupCI (flatVariants ["p_curve", "boxpcurve"]) ∧
    (expand_with_box ["p_curve", "boxpcurve"]).length =
      ((flatVariants ["p_curve", "boxpcurve"]).map pyLower).toFinset.card := by
  have h := expand_with_box_spec ["p_curve", "boxpcurve"]
  exact ⟨h.1, h.2.2.2.2.2.1⟩

theorem expand_with_box_head (s : String) (rest : List String) :
    (expand_with_box (s :: rest)).head? = some s := by
  rw [expand_with_box_eq_dedupCI]
  have h1 : flatVariants (s :: rest) =
      s :: (["box" ++ s, "box_" ++ s, "box-" ++ s] ++ flatVariants rest) := by
    simp [flatVariants, boxVariants]
  rw [h1, dedupCI]
  simp only [dedupCIAux]
  rw [if_neg (List.not_mem_nil _)]
  rfl

/-- C10: for every metric key the first element of the expanded alias list
equals the first element of its base stem list (conjunct 2, stated for every
non-empty stem list), hence the canonical key computed by the resolver
(`METRIC_ALIASES[k][0] + ".png"`) and the canonical key embedded in the
report's alias payload (`BASE_METRIC_STEMS[k][0] + ".png"`) agree on all six
metric keys (conjunct 1). -/
theorem canonical_key_agreement :
    resolver_canonical = payload_canonical ∧
    ∀ (s : String) (rest : List String),
      (expand_with_box (s :: rest)).head? = some s := by
  constructor
  · decide
  · exact expand_with_box_head

/-- Witness for C10 at a concrete stem list. -/
theorem canonical_key_agreement_witness :
    (expand_with_box ["pr_curve"]).head? = some "pr_curve" :=
  canonical_key_agreement.2 "pr_curve" []

/-! # Claim theorem: the CM → CM_N fallback (C3) -/

theorem getIsNone_eq_false (images : List (String × ImageVal)) (k : String)
    (h : getIsNone images k = false) :
    ∃ v, dget images k = some v ∧ v ≠ ImageVal.single none := by
  rcases h2 : dget images k with _ | v
  · rw [getIsNone, h2] at h
    simp at h
  · refine ⟨v, rfl, ?_⟩
    intro h3
    subst h3
    rw [getIsNone, h2] at h
    simp at h

/-- C3: after all metric keys are resolved, the fallback copies the CM
reference into the CM_N canonical key exactly when CM_N is absent and CM is
present (conjunct 1); it never overwrites a non-absent CM_N value
(conjunct 2); it touches no key other than the CM_N canonical key
(conjunct 3); it fires at most once — a second application changes nothing
(conjunct 4); and for a configuration directory containing only
`confusion_matrix.png` the resolved CM_N entry equals the resolved CM entry
(conjunct 5). -/
theorem cm_fallback_spec :
    (∀ images : List (String × ImageVal),
      getIsNone images cmn_key = true → getIsNone images cm_key = false →
        dget (applyCmFallback images) cmn_key = dget images cm_key) ∧
    (∀ images : List (String × ImageVal),
      getIsNone images cmn_key = false → applyCmFallback images = images) ∧
    (∀ (images : List (String × ImageVal)) (k : String), k ≠ cmn_key →
      dget (applyCmFallback images) k = dget images k) ∧
    (∀ images : List (String × ImageVal),
      applyCmFallback (applyCmFallback images) = applyCmFallback images) ∧
    (dget (buildConfigImages [⟨"confusion_matrix.png", some "D"⟩]) cmn_key =
       dget (buildConfigImages [⟨"confusion_matrix.png", some "D"⟩]) cm_key ∧
     dget (buildConfigImages [⟨"confusion_matrix.png", some "D"⟩]) cm_key =
       some (ImageVal.single (some "data:image/png;base64,D"))) := by
  refine ⟨?_, ?_, ?_, ?_, by decide, by decide⟩
  · intro images h1 h2
    obtain ⟨v, hv, _⟩ := getIsNone_eq_false images cm_key h2
    rw [applyCmFallback, h1, h2]
    simp only [Bool.not_false, Bool.and_true, if_true]
    rw [hv, dget_dinsert_self]
  · intro images h1
    rw [applyCmFallback, h1]
    simp
  · intro images k hk
    rw [applyCmFallback]
    by_cases hc : (getIsNone images cmn_key && !getIsNone images cm_key) = true
    · rw [if_pos hc]
      rcases h2 : dget images cm_key with _ | v
      · rfl
      · exact dget_dinsert_ne images cmn_key k v hk
    · rw [if_neg hc]
  · intro images
    by_cases hc : (getIsNone images cmn_key && !getIsNone images cm_key) = true
    · have hsplit : getIsNone images cmn_key = true ∧
          (!getIsNone images cm_key) = true := by
        simpa [Bool.and_eq_true] using hc
      have h1 := hsplit.1
      have h2 : getIsNone images cm_key = false := by
        simpa using hsplit.2
      obtain ⟨v, hv, hvne⟩ := getIsNone_eq_false images cm_key h2
      have hres : applyCmFallback images = dinsert images cmn_key v := by
        rw [applyCmFallback, if_pos hc, hv]
      rw [hres]
      have h3 : getIsNone (dinsert images cmn_key v) cmn_key = false := by
        rw [getIsNone, dget_dinsert_self]
        rcases v with u | xs | m
        · rcases u with _ | u
          · exact absurd rfl hvne
          · rfl
        · rfl
        · rfl
      rw [applyCmFallback, h3]
      simp
    · have hres : applyCmFallback images = images := by
        rw [applyCmFallback, if_neg hc]
      rw [hres, hres]

/-- Witness for C3: the fallback hypotheses hold after resolving a directory
that contains only a raw confusion matrix, and the copy equation follows. -/
theorem cm_fallback_spec_witness :
    dget (applyCmFallback
        (resolveAllMetrics (mkPresent [⟨"confusion_matrix.png", some "D"⟩])))
      cmn_key =
      dget (resolveAllMetrics (mkPresent [⟨"confusion_matrix.png", some "D"⟩]))
        cm_key := by
  have h := cm_fallback_spec.1
    (resolveAllMetrics (mkPresent [⟨"confusion_matrix.png", some "D"⟩]))
    (by decide) (by decide)
  exact h

/-! ## Lemmas about metric resolution -/

theorem string_ext_data (a b : String) (h : a.data = b.data) : a = b := by
  cases a
  cases b
  exact congrArg String.mk h

theorem string_append_left_cancel (a b c : String) (h : a ++ b = a ++ c) :
    b = c := by
  have h2 := congrArg String.data h
  rw [string_data_append, string_data_append] at h2
  exact string_ext_data _ _ (List.append_cancel_left h2)

theorem tryExts_ext_mem (present : List (String × FileEntry)) (stem : String)
    (exts : List String) (du : Option String) (e : String)
    (h : tryExts present stem exts = some (du, e)) : e ∈ exts := by
  induction exts with
  | nil => simp [tryExts] at h
  | cons ext rest ih =>
    rw [tryExts] at h
    rcases h2 : dget present (pyLower (stem ++ ext)) with _ | f
    · rw [h2] at h
      exact List.mem_cons_of_mem _ (ih h)
    · rw [h2] at h
      injection h with h3
      obtain ⟨-, rfl⟩ := Prod.mk.injEq .. ▸ And.intro (congrArg Prod.fst h3) (congrArg Prod.snd h3)
      exact List.mem_cons_self _ _

theorem resolveStems_ext_mem (present : List (String × FileEntry)) :
    ∀ (stems : List String) (fe : Option String) (e : String),
      (resolveStems present stems fe).2 = some e →
        e ∈ ALLOWED_EXTS ∨ fe = some e := by
  intro stems
  induction stems with
  | nil =>
    intro fe e h
    rw [resolveStems] at h
    exact Or.inr h
  | cons stem rest ih =>
    intro fe e h
    rw [resolveStems] at h
    rcases h2 : tryExts present stem ALLOWED_EXTS with _ | du
    · rw [h2] at h
      exact ih fe e h
    · rcases du with ⟨du1, ext⟩
      rcases du1 with _ | u
      · rw [h2] at h
        rcases ih (some ext) e h with h3 | h3
        · exact Or.inl h3
        · injection h3 with h4
          subst h4
          exact Or.inl (tryExts_ext_mem present stem ALLOWED_EXTS none ext h2)
      · rw [h2] at h
        simp at h
        subst h
        exact Or.inl (tryExts_ext_mem present stem ALLOWED_EXTS (some u) ext h2)

theorem tryExts_some_some (present : List (String × FileEntry))
    (stem : String) (exts : List String) (w ext : String)
    (h : tryExts present stem exts = some (some w, ext)) :
    ∃ f : FileEntry, dget present (pyLower (stem ++ ext)) = some f ∧
      encode_image_to_data_url f = some w := by
  induction exts with
  | nil => simp [tryExts] at h
  | cons x xs ih =>
    rw [tryExts] at h
    rcases h3 : dget present (pyLower (stem ++ x)) with _ | f
    · rw [h3] at h
      exact ih h
    · rw [h3] at h
      injection h with h4
      have h5 := congrArg Prod.fst h4
      have h6 := congrArg Prod.snd h4
      simp at h5 h6
      subst h6
      exact ⟨f, h3, h5⟩

theorem resolveStems_url_origin (present : List (String × FileEntry)) :
    ∀ (stems : List String) (fe : Option String) (u : String),
      (resolveStems present stems fe).1 = some u →
        ∃ stem ∈ stems, ∃ e ∈ ALLOWED_EXTS, ∃ f : FileEntry,
          dget present (pyLower (stem ++ e)) = some f ∧
          encode_image_to_data_url f = some u := by
  intro stems
  induction stems with
  | nil =>
    intro fe u h
    simp [resolveStems] at h
  | cons stem rest ih =>
    intro fe u h
    rw [resolveStems] at h
    rcases h2 : tryExts present stem ALLOWED_EXTS with _ | du
    · rw [h2] at h
      obtain ⟨st, hst, hrest⟩ := ih fe u h
      exact ⟨st, List.mem_cons_of_mem _ hst, hrest⟩
    · rcases du with ⟨du1, ext⟩
      rcases du1 with _ | w
      · rw [h2] at h
        obtain ⟨st, hst, hrest⟩ := ih (some ext) u h
        exact ⟨st, List.mem_cons_of_mem _ hst, hrest⟩
      · rw [h2] at h
        simp at h
        subst h
        have hmem := tryExts_ext_mem present stem ALLOWED_EXTS (some w) ext h2
        obtain ⟨f, hf1, hf2⟩ := tryExts_some_some present stem ALLOWED_EXTS w ext h2
        exact ⟨stem, List.mem_cons_self _ _, ext, hmem, f, hf1, hf2⟩

theorem primaryExt_mem : primaryExt ∈ ALLOWED_EXTS := by decide

theorem storeMetric_dget_canonical (present : List (String × FileEntry))
    (images : List (String × ImageVal)) (stems : List String) :
    dget (storeMetric present images stems) (stems.headD "" ++ primaryExt) =
      some (ImageVal.single (resolveStems present stems none).1) := by
  simp only [storeMetric]
  rcases h2 : (resolveStems present stems none).2 with _ | fext
  · exact dget_dinsert_self _ _ _
  · dsimp only
    by_cases h3 : fext ≠ primaryExt
    · rw [if_pos h3]
      have hne : stems.headD "" ++ primaryExt ≠ stems.headD "" ++ fext := by
        intro h4
        exact h3 (string_append_left_cancel _ _ _ h4).symm
      rw [dget_dinsert_ne _ _ _ _ hne]
      exact dget_dinsert_self _ _ _
    · rw [if_neg h3]
      exact dget_dinsert_self _ _ _

theorem storeMetric_dget_secondary (present : List (String × FileEntry))
    (images : List (String × ImageVal)) (stems : List String) (e : String)
    (h1 : (resolveStems present stems none).2 = some e)
    (h2 : e ≠ primaryExt) :
    dget (storeMetric present images stems) (stems.headD "" ++ e) =
      some (ImageVal.single (resolveStems present stems none).1) := by
  simp only [storeMetric]
  rw [h1]
  dsimp only
  rw [if_pos h2]
  exact dget_dinsert_self _ _ _

theorem storeMetric_dget_other (present : List (String × FileEntry))
    (images : List (String × ImageVal)) (stems : List String) (k : String)
    (hk : ∀ e ∈ ALLOWED_EXTS, k ≠ stems.headD "" ++ e) :
    dget (storeMetric present images stems) k = dget images k := by
  simp only [storeMetric]
  rcases h2 : (resolveStems present stems none).2 with _ | fext
  · exact dget_dinsert_ne _ _ _ _ (hk primaryExt primaryExt_mem)
  · have hfx : fext ∈ ALLOWED_EXTS := by
      rcases resolveStems_ext_mem present stems none fext h2 with h3 | h3
      · exact h3
      · simp at h3
    dsimp only
    by_cases h3 : fext ≠ primaryExt
    · rw [if_pos h3, dget_dinsert_ne _ _ _ _ (hk fext hfx),
        dget_dinsert_ne _ _ _ _ (hk primaryExt primaryExt_mem)]
    · rw [if_neg h3, dget_dinsert_ne _ _ _ _ (hk primaryExt primaryExt_mem)]

theorem foldl_storeMetric_preserve (present : List (String × FileEntry))
    (table : List (String × List String)) :
    ∀ (images : List (String × ImageVal)) (k : String),
      (∀ kv ∈ table, ∀ e ∈ ALLOWED_EXTS, k ≠ kv.2.headD "" ++ e) →
      dget (table.foldl (fun imgs kv => storeMetric present imgs kv.2) images)
          k = dget images k := by
  induction table with
  | nil => intro images k _; rfl
  | cons kv rest ih =>
    intro images k h
    rw [List.foldl_cons]
    rw [ih _ k (fun kv2 h2 => h kv2 (List.mem_cons_of_mem _ h2))]
    exact storeMetric_dget_other present images kv.2 k
      (h kv (List.mem_cons_self _ _))

theorem foldl_storeMetric_canonical (present : List (String × FileEntry))
    (table : List (String × List String)) :
    ∀ (images : List (String × ImageVal)) (kv : String × List String),
      kv ∈ table →
      (∀ kv2 ∈ table, kv2 = kv ∨ ∀ e ∈ ALLOWED_EXTS,
        kv.2.headD "" ++ primaryExt ≠ kv2.2.headD "" ++ e) →
      dget (table.foldl (fun imgs kv2 => storeMetric present imgs kv2.2) images)
          (kv.2.headD "" ++ primaryExt) =
        some (ImageVal.single (resolveStems present kv.2 none).1) := by
  induction table with
  | nil =>
    intro _ _ h _
    simp at h
  | cons kv0 rest ih =>
    intro images kv hmem hdisj
    rw [List.foldl_cons]
    by_cases hr : kv ∈ rest
    · exact ih _ kv hr (fun kv2 h2 => hdisj kv2 (List.mem_cons_of_mem _ h2))
    · have hk0 : kv0 = kv := by
        rcases List.mem_cons.mp hmem with h2 | h2
        · exact h2.symm
        · exact absurd h2 hr
      subst hk0
      rw [foldl_storeMetric_preserve present rest _ _ ?hpres]
      · exact storeMetric_dget_canonical present images kv0.2
      case hpres =>
        intro kv2 h2 e he
        rcases hdisj kv2 (List.mem_cons_of_mem _ h2) with h3 | h3
        · rw [h3] at h2
          exact absurd h2 hr
        · exact h3 e he

theorem foldl_storeMetric_secondary (present : List (String × FileEntry))
    (table : List (String × List String)) :
    ∀ (images : List (String × ImageVal)) (kv : String × List String)
      (e : String),
      kv ∈ table →
      (resolveStems present kv.2 none).2 = some e → e ≠ primaryExt →
      (∀ kv2 ∈ table, kv2 = kv ∨ ∀ e2 ∈ ALLOWED_EXTS,
        kv.2.headD "" ++ e ≠ kv2.2.headD "" ++ e2) →
      dget (table.foldl (fun imgs kv2 => storeMetric present imgs kv2.2) images)
          (kv.2.headD "" ++ e) =
        some (ImageVal.single (resolveStems present kv.2 none).1) := by
  induction table with
  | nil =>
    intro _ _ _ h _ _ _
    simp at h
  | cons kv0 rest ih =>
    intro images kv e hmem hres hne hdisj
    rw [List.foldl_cons]
    by_cases hr : kv ∈ rest
    · exact ih _ kv e hr hres hne
        (fun kv2 h2 => hdisj kv2 (List.mem_cons_of_mem _ h2))
    · have hk0 : kv0 = kv := by
        rcases List.mem_cons.mp hmem with h2 | h2
        · exact h2.symm
        · exact absurd h2 hr
      subst hk0
      rw [foldl_storeMetric_preserve present rest _ _ ?hpres2]
      · exact storeMetric_dget_secondary present images kv0.2 e hres hne
      case hpres2 =>
        intro kv2 h2 e2 he2
        rcases hdisj kv2 (List.mem_cons_of_mem _ h2) with h3 | h3
        · rw [h3] at h2
          exact absurd h2 hr
        · exact h3 e2 he2

theorem metric_keys_disjoint :
    ∀ kv ∈ METRIC_ALIASES, ∀ kv2 ∈ METRIC_ALIASES,
      ∀ e ∈ ALLOWED_EXTS, ∀ e2 ∈ ALLOWED_EXTS,
        kv2 = kv ∨ kv.2.headD "" ++ e ≠ kv2.2.headD "" ++ e2 := by decide

theorem resolveAllMetrics_canonical (present : List (String × FileEntry))
    (kv : String × List String) (h : kv ∈ METRIC_ALIASES) :
    dget (resolveAllMetrics present) (kv.2.headD "" ++ primaryExt) =
      some (ImageVal.single (resolveStems present kv.2 none).1) := by
  rw [resolveAllMetrics]
  apply foldl_storeMetric_canonical present METRIC_ALIASES [] kv h
  intro kv2 h2
  by_cases hk : kv2 = kv
  · exact Or.inl hk
  · right
    intro e he
    rcases metric_keys_disjoint kv h kv2 h2 primaryExt primaryExt_mem e he
      with h3 | h3
    · exact absurd h3 hk
    · exact h3

theorem resolveAllMetrics_secondary (present : List (String × FileEntry))
    (kv : String × List String) (e : String) (h : kv ∈ METRIC_ALIASES)
    (hres : (resolveStems present kv.2 none).2 = some e)
    (hne : e ≠ primaryExt) :
    dget (resolveAllMetrics present) (kv.2.headD "" ++ e) =
      some (ImageVal.single (resolveStems present kv.2 none).1) := by
  rw [resolveAllMetrics]
  have hemem : e ∈ ALLOWED_EXTS := by
    rcases resolveStems_ext_mem present kv.2 none e hres with h3 | h3
    · exact h3
    · simp at h3
  apply foldl_storeMetric_secondary present METRIC_ALIASES [] kv e h hres hne
  intro kv2 h2
  by_cases hk : kv2 = kv
  · exact Or.inl hk
  · right
    intro e2 he2
    rcases metric_keys_disjoint kv h kv2 h2 e hemem e2 he2 with h3 | h3
    · exact absurd h3 hk
    · exact h3

theorem resolveAllMetrics_other (present : List (String × FileEntry))
    (k : String)
    (h : ∀ kv ∈ METRIC_ALIASES, ∀ e ∈ ALLOWED_EXTS, k ≠ kv.2.headD "" ++ e) :
    dget (resolveAllMetrics present) k = none := by
  rw [resolveAllMetrics]
  rw [foldl_storeMetric_preserve present METRIC_ALIASES [] k h]
  rfl

/-! ## Lemmas about the fallback and gallery phases -/

theorem applyCmFallback_other (images : List (String × ImageVal)) (k : String)
    (hk : k ≠ cmn_key) : dget (applyCmFallback images) k = dget images k := by
  rw [applyCmFallback]
  by_cases hc : (getIsNone images cmn_key && !getIsNone images cm_key) = true
  · rw [if_pos hc]
    rcases h2 : dget images cm_key with _ | v
    · rfl
    · exact dget_dinsert_ne images cmn_key k v hk
  · rw [if_neg hc]

theorem applyCmFallback_cmn_single (images : List (String × ImageVal))
    (hcm : ∃ u, dget images cm_key = some (ImageVal.single u))
    (hcmn : ∃ u, dget images cmn_key = some (ImageVal.single u)) :
    ∃ u, dget (applyCmFallback images) cmn_key = some (ImageVal.single u) := by
  rw [applyCmFallback]
  by_cases hc : (getIsNone images cmn_key && !getIsNone images cm_key) = true
  · rw [if_pos hc]
    obtain ⟨u, hu⟩ := hcm
    rw [hu]
    exact ⟨u, dget_dinsert_self _ _ _⟩
  · rw [if_neg hc]
    exact hcmn

theorem addGalleries_dget_other (present : List (String × FileEntry))
    (images : List (String × ImageVal)) (k : String)
    (h1 : k ≠ "VAL_LABELS") (h2 : k ≠ "VAL_PRED") :
    dget (addGalleries present images) k = dget images k := by
  simp only [addGalleries]
  by_cases c1 : (classifyGalleries present).1 ≠ []
  · rw [if_pos c1]
    by_cases c2 : (classifyGalleries present).2.1 ≠ []
    · rw [if_pos c2, dget_dinsert_ne _ _ _ _ h2, dget_dinsert_ne _ _ _ _ h1]
    · rw [if_neg c2, dget_dinsert_ne _ _ _ _ h1]
  · rw [if_neg c1]
    by_cases c2 : (classifyGalleries present).2.1 ≠ []
    · rw [if_pos c2, dget_dinsert_ne _ _ _ _ h2]
    · rw [if_neg c2]

theorem metric_keys_not_gallery :
    ∀ kv ∈ METRIC_ALIASES, ∀ e ∈ ALLOWED_EXTS,
      kv.2.headD "" ++ e ≠ "VAL_LABELS" ∧
      kv.2.headD "" ++ e ≠ "VAL_PRED" := by decide

theorem buildConfigImages_canonical (files : List FileEntry)
    (kv : String × List String) (h : kv ∈ METRIC_ALIASES) :
    ∃ u, dget (buildConfigImages files) (kv.2.headD "" ++ primaryExt) =
      some (ImageVal.single u) := by
  have hng := metric_keys_not_gallery kv h primaryExt primaryExt_mem
  simp only [buildConfigImages]
  rw [addGalleries_dget_other _ _ _ hng.1 hng.2]
  by_cases hcmn : kv.2.headD "" ++ primaryExt = cmn_key
  · rw [hcmn]
    apply applyCmFallback_cmn_single
    · exact ⟨_, resolveAllMetrics_canonical (mkPresent files)
        ("CM", aliasStems "CM") (by decide)⟩
    · exact ⟨_, resolveAllMetrics_canonical (mkPresent files)
        ("CM_N", aliasStems "CM_N") (by decide)⟩
  · rw [applyCmFallback_other _ _ hcmn]
    exact ⟨_, resolveAllMetrics_canonical (mkPresent files) kv h⟩

theorem nodup_keys_storeMetric (present : List (String × FileEntry))
    (images : List (String × ImageVal)) (stems : List String)
    (h : (images.map Prod.fst).Nodup) :
    ((storeMetric present images stems).map Prod.fst).Nodup := by
  simp only [storeMetric]
  rcases h2 : (resolveStems present stems none).2 with _ | fext
  · exact nodup_keys_dinsert _ _ _ h
  · dsimp only
    by_cases h3 : fext ≠ primaryExt
    · rw [if_pos h3]
      exact nodup_keys_dinsert _ _ _ (nodup_keys_dinsert _ _ _ h)
    · rw [if_neg h3]
      exact nodup_keys_dinsert _ _ _ h

theorem nodup_keys_resolveAllMetrics (present : List (String × FileEntry)) :
    ((resolveAllMetrics present).map Prod.fst).Nodup := by
  rw [resolveAllMetrics]
  have hgen : ∀ (table : List (String × List String))
      (images : List (String × ImageVal)), (images.map Prod.fst).Nodup →
      ((table.foldl (fun imgs kv => storeMetric present imgs kv.2)
          images).map Prod.fst).Nodup := by
    intro table
    induction table with
    | nil => intro images h; exact h
    | cons kv rest ih =>
      intro images h
      rw [List.foldl_cons]
      exact ih _ (nodup_keys_storeMetric present images kv.2 h)
  exact hgen METRIC_ALIASES [] (by simp)

theorem nodup_keys_applyCmFallback (images : List (String × ImageVal))
    (h : (images.map Prod.fst).Nodup) :
    ((applyCmFallback images).map Prod.fst).Nodup := by
  rw [applyCmFallback]
  by_cases hc : (getIsNone images cmn_key && !getIsNone images cm_key) = true
  · rw [if_pos hc]
    rcases h2 : dget images cm_key with _ | v
    · exact h
    · exact nodup_keys_dinsert _ _ _ h
  · rw [if_neg hc]
    exact h

theorem nodup_keys_addGalleries (present : List (String × FileEntry))
    (images : List (String × ImageVal)) (h : (images.map Prod.fst).Nodup) :
    ((addGalleries present images).map Prod.fst).Nodup := by
  simp only [addGalleries]
  by_cases c1 : (classifyGalleries present).1 ≠ []
  · rw [if_pos c1]
    by_cases c2 : (classifyGalleries present).2.1 ≠ []
    · rw [if_pos c2]
      exact nodup_keys_dinsert _ _ _ (nodup_keys_dinsert _ _ _ h)
    · rw [if_neg c2]
      exact nodup_keys_dinsert _ _ _ h
  · rw [if_neg c1]
    by_cases c2 : (classifyGalleries present).2.1 ≠ []
    · rw [if_pos c2]
      exact nodup_keys_dinsert _ _ _ h
    · rw [if_neg c2]
      exact h

theorem nodup_keys_buildConfigImages (files : List FileEntry) :
    ((buildConfigImages files).map Prod.fst).Nodup := by
  simp only [buildConfigImages]
  exact nodup_keys_addGalleries _ _
    (nodup_keys_applyCmFallback _ (nodup_keys_resolveAllMetrics _))

/-! # Claim theorem: totality of the configuration record (C4) -/

/-- C4: for every configuration directory, the record maps each of the six
metric keys' canonical keys (first expanded stem + ".png") to exactly one
entry — always present (conjunct 1: a `single` value, a resolved reference
or the absent marker `none`, never an error), and present exactly once
(conjunct 2: the record's keys are duplicate-free); a directory with zero
recognized files yields the record in which all six canonical keys map to
the absent marker and no gallery keys exist (conjunct 3, an exhaustive
record equation). -/
theorem config_record_total :
    (∀ (files : List FileEntry), ∀ kv ∈ METRIC_ALIASES,
      ∃ u, dget (buildConfigImages files) (kv.2.headD "" ++ primaryExt) =
        some (ImageVal.single u)) ∧
    (∀ files : List FileEntry,
      ((buildConfigImages files).map Prod.fst).Nodup) ∧
    buildConfigImages [] =
      [("pr_curve.png", ImageVal.single none),
       ("p_curve.png", ImageVal.single none),
       ("r_curve.png", ImageVal.single none),
       ("f1_curve.png", ImageVal.single none),
       ("confusion_matrix.png", ImageVal.single none),
       ("confusion_matrix_normalized.png", ImageVal.single none)] := by
  refine ⟨?_, nodup_keys_buildConfigImages, by decide⟩
  intro files kv h
  exact buildConfigImages_canonical files kv h

/-- Witness for C4: the PR canonical key is present in the empty-directory
record. -/
theorem config_record_total_witness :
    ∃ u, dget (buildConfigImages []) ("pr_curve" ++ primaryExt) =
      some (ImageVal.single u) :=
  config_record_total.1 [] ("PR", aliasStems "PR") (by decide)

/-! ## First-match characterisation of the resolver -/

theorem dget_mkPresent_mem (files : List FileEntry) (k : String)
    (f : FileEntry) (h : dget (mkPresent files) k = some f) : f ∈ files := by
  suffices hgen : ∀ (fs : List FileEntry) (m0 : List (String × FileEntry)),
      dget (fs.foldl (fun m g => dinsert m (pyLower g.name) g) m0) k = some f →
      f ∈ fs ∨ dget m0 k = some f by
    rcases hgen files [] h with h2 | h2
    · exact h2
    · simp [dget] at h2
  intro fs
  induction fs with
  | nil => intro m0 h2; exact Or.inr h2
  | cons g rest ih =>
    intro m0 h2
    rw [List.foldl_cons] at h2
    rcases ih _ h2 with h3 | h3
    · exact Or.inl (List.mem_cons_of_mem _ h3)
    · rw [dget_dinsert] at h3
      by_cases h4 : k = pyLower g.name
      · rw [if_pos h4] at h3
        injection h3 with h5
        refine Or.inl ?_
        rw [← h5]
        exact List.mem_cons_self _ _
      · rw [if_neg h4] at h3
        exact Or.inr h3

theorem firstMatchExts_dget (present : List (String × FileEntry))
    (stem : String) (exts : List String) (e : String) (f : FileEntry)
    (h : firstMatchExts present stem exts = some (e, f)) :
    dget present (pyLower (stem ++ e)) = some f ∧ e ∈ exts := by
  induction exts with
  | nil => simp [firstMatchExts] at h
  | cons x xs ih =>
    rw [firstMatchExts] at h
    rcases h3 : dget present (pyLower (stem ++ x)) with _ | g
    · rw [h3] at h
      obtain ⟨h4, h5⟩ := ih h
      exact ⟨h4, List.mem_cons_of_mem _ h5⟩
    · rw [h3] at h
      injection h with h4
      have h5 := congrArg Prod.fst h4
      have h6 := congrArg Prod.snd h4
      simp at h5 h6
      subst h5
      subst h6
      exact ⟨h3, List.mem_cons_self _ _⟩

theorem resolveStems_firstMatch (files : List FileEntry)
    (hread : ∀ f ∈ files, f.content.isSome = true) :
    ∀ stems : List String,
      resolveStems (mkPresent files) stems none =
        (match firstMatch (mkPresent files) stems with
         | some (_, e, f) => (encode_image_to_data_url f, some e)
         | none => (none, none)) := by
  intro stems
  induction stems with
  | nil => rfl
  | cons stem rest ih =>
    rw [resolveStems, firstMatch]
    have hexts : ∀ exts : List String,
        tryExts (mkPresent files) stem exts =
          (match firstMatchExts (mkPresent files) stem exts with
           | some (e, f) => some (encode_image_to_data_url f, e)
           | none => none) := by
      intro exts
      induction exts with
      | nil => rfl
      | cons x xs ihx =>
        rw [tryExts, firstMatchExts]
        rcases h3 : dget (mkPresent files) (pyLower (stem ++ x)) with _ | f
        · rw [ihx]
        · rfl
    rw [hexts ALLOWED_EXTS]
    rcases h4 : firstMatchExts (mkPresent files) stem ALLOWED_EXTS with _ | ef
    · dsimp only
      exact ih
    · rcases ef with ⟨e, f⟩
      dsimp only
      obtain ⟨hf, -⟩ := firstMatchExts_dget (mkPresent files) stem
        ALLOWED_EXTS e f h4
      have hmem := dget_mkPresent_mem files _ f hf
      have hc := hread f hmem
      rcases h5 : f.content with _ | b
      · rw [h5] at hc
        simp at hc
      · have henc : encode_image_to_data_url f =
            some ("data:" ++ guess_mime_type f.name ++ ";base64," ++ b) := by
          rw [encode_image_to_data_url, h5]
        rw [henc]

/-! # Claim theorem: first-match-wins metric resolution (C1) -/

/-- C1: when every file of the directory is readable, the resolver computes
exactly the stem-major, extension-minor, case-insensitive first match over
the expanded alias list (conjunct 1); the expanded P stem list places
`boxp_curve` before `precision` (conjunct 2), and accordingly a directory
holding both `boxP_curve.PNG` and `precision.png` resolves metric P to
`boxP_curve.PNG` (conjunct 3); extension precedence: a metric present as
both `pr_curve.jpg` and `pr_curve.png` resolves to `.png` in either
file-listing order (conjuncts 4 and 5). -/
theorem resolver_first_match :
    (∀ files : List FileEntry, (∀ f ∈ files, f.content.isSome = true) →
      ∀ stems : List String,
        resolveStems (mkPresent files) stems none =
          (match firstMatch (mkPresent files) stems with
           | some (_, e, f) => (encode_image_to_data_url f, some e)
           | none => (none, none))) ∧
    (aliasStems "P").indexOf "boxp_curve" <
      (aliasStems "P").indexOf "precision" ∧
    resolveStems
        (mkPresent [⟨"boxP_curve.PNG", some "A"⟩, ⟨"precision.png", some "B"⟩])
        (aliasStems "P") none =
      (some "data:image/png;base64,A", some ".png") ∧
    resolveStems
        (mkPresent [⟨"pr_curve.jpg", some "J"⟩, ⟨"pr_curve.png", some "K"⟩])
        (aliasStems "PR") none =
      (some "data:image/png;base64,K", some ".png") ∧
    resolveStems
        (mkPresent [⟨"pr_curve.png", some "K"⟩, ⟨"pr_curve.jpg", some "J"⟩])
        (aliasStems "PR") none =
      (some "data:image/png;base64,K", some ".png") := by
  exact ⟨resolveStems_firstMatch, by decide, by decide, by decide, by decide⟩

/-- Witness for C1: the first-match characterisation applied to the
`boxP_curve.PNG`/`precision.png` directory. -/
theorem resolver_first_match_witness :
    resolveStems
        (mkPresent [⟨"boxP_curve.PNG", some "A"⟩, ⟨"precision.png", some "B"⟩])
        ["boxp_curve", "precision"] none =
      (some "data:image/png;base64,A", some ".png") := by
  have h := resolver_first_match.1
    [⟨"boxP_curve.PNG", some "A"⟩, ⟨"precision.png", some "B"⟩]
    (by decide) ["boxp_curve", "precision"]
  rw [h]
  decide

/-! # Claim theorem: secondary-key storage (C8) -/

theorem applyCmFallback_no_fire (images : List (String × ImageVal))
    (h : getIsNone images cmn_key = false) : applyCmFallback images = images := by
  rw [applyCmFallback, h]
  simp

/-- C8: whenever a metric resolves through an extension other than the
primary `.png`, the final record additionally contains the key
`first-expanded-stem + matched-extension`, and it maps to the same value as
the metric's canonical key (both hold the resolved reference). -/
theorem secondary_key_spec :
    ∀ (files : List FileEntry) (kv : String × List String),
      kv ∈ METRIC_ALIASES → ∀ (u e : String), e ≠ primaryExt →
      resolveStems (mkPresent files) kv.2 none = (some u, some e) →
      dget (buildConfigImages files) (kv.2.headD "" ++ e) =
          some (ImageVal.single (some u)) ∧
      dget (buildConfigImages files) (kv.2.headD "" ++ primaryExt) =
          some (ImageVal.single (some u)) := by
  intro files kv h u e hne hres
  have hres1 : (resolveStems (mkPresent files) kv.2 none).1 = some u :=
    congrArg Prod.fst hres
  have hres2 : (resolveStems (mkPresent files) kv.2 none).2 = some e :=
    congrArg Prod.snd hres
  have hemem : e ∈ ALLOWED_EXTS := by
    rcases resolveStems_ext_mem (mkPresent files) kv.2 none e hres2 with h3 | h3
    · exact h3
    · simp at h3
  have hCMN : ("CM_N", aliasStems "CM_N") ∈ METRIC_ALIASES := by decide
  have hsec : dget (resolveAllMetrics (mkPresent files)) (kv.2.headD "" ++ e) =
      some (ImageVal.single (some u)) := by
    have h2 := resolveAllMetrics_secondary (mkPresent files) kv e h hres2 hne
    rw [hres1] at h2
    exact h2
  have hcan : dget (resolveAllMetrics (mkPresent files))
      (kv.2.headD "" ++ primaryExt) = some (ImageVal.single (some u)) := by
    have h2 := resolveAllMetrics_canonical (mkPresent files) kv h
    rw [hres1] at h2
    exact h2
  have hsec_ne_cmn : kv.2.headD "" ++ e ≠ cmn_key := by
    by_cases hkv : kv = ("CM_N", aliasStems "CM_N")
    · subst hkv
      intro h3
      exact hne (string_append_left_cancel _ _ _ h3)
    · rcases metric_keys_disjoint kv h ("CM_N", aliasStems "CM_N") hCMN e hemem
        primaryExt primaryExt_mem with h3 | h3
      · exact absurd h3.symm hkv
      · exact h3
  have hfb : dget (applyCmFallback (resolveAllMetrics (mkPresent files)))
        (kv.2.headD "" ++ e) = some (ImageVal.single (some u)) ∧
      dget (applyCmFallback (resolveAllMetrics (mkPresent files)))
        (kv.2.headD "" ++ primaryExt) = some (ImageVal.single (some u)) := by
    by_cases hkv : kv = ("CM_N", aliasStems "CM_N")
    · have hnofire : applyCmFallback (resolveAllMetrics (mkPresent files)) =
          resolveAllMetrics (mkPresent files) := by
        apply applyCmFallback_no_fire
        have hcmn2 : dget (resolveAllMetrics (mkPresent files)) cmn_key =
            some (ImageVal.single (some u)) := by
          rw [hkv] at hcan
          exact hcan
        rw [getIsNone, hcmn2]
      rw [hnofire]
      exact ⟨hsec, hcan⟩
    · have hcan_ne_cmn : kv.2.headD "" ++ primaryExt ≠ cmn_key := by
        rcases metric_keys_disjoint kv h ("CM_N", aliasStems "CM_N") hCMN
          primaryExt primaryExt_mem primaryExt primaryExt_mem with h3 | h3
        · exact absurd h3.symm hkv
        · exact h3
      rw [applyCmFallback_other _ _ hsec_ne_cmn,
        applyCmFallback_other _ _ hcan_ne_cmn]
      exact ⟨hsec, hcan⟩
  have hg1 := metric_keys_not_gallery kv h e hemem
  have hg2 := metric_keys_not_gallery kv h primaryExt primaryExt_mem
  constructor
  · simp only [buildConfigImages]
    rw [addGalleries_dget_other _ _ _ hg1.1 hg1.2]
    exact hfb.1
  · simp only [buildConfigImages]
    rw [addGalleries_dget_other _ _ _ hg2.1 hg2.2]
    exact hfb.2

/-- Witness for C8: a PR curve stored only as `pr_curve.jpg` appears in the
record under both `pr_curve.jpg` and the canonical `pr_curve.png`, holding
the same reference. -/
theorem secondary_key_spec_witness :
    dget (buildConfigImages [⟨"pr_curve.jpg", some "J"⟩]) "pr_curve.jpg" =
        some (ImageVal.single (some "data:image/jpeg;base64,J")) ∧
    dget (buildConfigImages [⟨"pr_curve.jpg", some "J"⟩]) "pr_curve.png" =
        some (ImageVal.single (some "data:image/jpeg;base64,J")) := by
  have h := secondary_key_spec [⟨"pr_curve.jpg", some "J"⟩]
    ("PR", aliasStems "PR") (by decide) "data:image/jpeg;base64,J" ".jpg"
    (by decide) (by decide)
  exact h

/-! ## Length of the sorted configuration list -/

theorem insertLe_length {α : Type} (le : α → α → Bool) (x : α) (l : List α) :
    (insertLe le x l).length = l.length + 1 := by
  induction l with
  | nil => rfl
  | cons y ys ih =>
    rw [insertLe]
    by_cases h : le y x = true
    · rw [if_pos h]
      simp [ih]
    · rw [if_neg h]
      simp

theorem sortByLe_length {α : Type} (le : α → α → Bool) (l : List α) :
    (sortByLe le l).length = l.length := by
  suffices hgen : ∀ acc : List α,
      (l.foldl (fun acc x => insertLe le x acc) acc).length =
        acc.length + l.length by
    simpa using hgen []
  induction l with
  | nil => intro acc; simp
  | cons x xs ih =>
    intro acc
    rw [List.foldl_cons, ih (insertLe le x acc), insertLe_length]
    simp only [List.length_cons]
    omega

theorem collect_config_images_length (dir : DirNode) :
    (collect_config_images dir).length =
      (dir.subdirs.filter (fun p => pyEndsWith p.name "_config")).length := by
  simp only [collect_config_images]
  rw [List.length_map, sortByLe_length]

theorem buildConfigImages_canonical_eq (files : List FileEntry)
    (kv : String × List String) (h : kv ∈ METRIC_ALIASES)
    (hn : kv.1 ≠ "CM_N") :
    dget (buildConfigImages files) (kv.2.headD "" ++ primaryExt) =
      some (ImageVal.single (resolveStems (mkPresent files) kv.2 none).1) := by
  have hCMN : ("CM_N", aliasStems "CM_N") ∈ METRIC_ALIASES := by decide
  have hkv : kv ≠ ("CM_N", aliasStems "CM_N") := by
    intro h2
    rw [h2] at hn
    exact hn rfl
  have hcan_ne : kv.2.headD "" ++ primaryExt ≠ cmn_key := by
    rcases metric_keys_disjoint kv h ("CM_N", aliasStems "CM_N") hCMN
      primaryExt primaryExt_mem primaryExt primaryExt_mem with h3 | h3
    · exact absurd h3.symm hkv
    · exact h3
  have hg := metric_keys_not_gallery kv h primaryExt primaryExt_mem
  simp only [buildConfigImages]
  rw [addGalleries_dget_other _ _ _ hg.1 hg.2, applyCmFallback_other _ _ hcan_ne]
  exact resolveAllMetrics_canonical (mkPresent files) kv h

/-! # Claim theorem: per-file read failure is recovered locally (C9) -/

/-- C9: a successful resolution can only come from a candidate file whose
encoding succeeded, so an unreadable file is a non-match for its filename
(conjunct 1, contrapositive form); each non-CM_N metric's canonical entry is
exactly the resolver's outcome — the absent marker unless some candidate
file resolves (conjunct 2); the scan always produces one record per
configuration directory, whatever the file contents, so no read failure
aborts it (conjunct 3); concretely, with `p_curve.png` unreadable and
`r_curve.png` readable, P ends absent while R still resolves (conjunct 4). -/
theorem read_failure_recovery :
    (∀ (present : List (String × FileEntry)) (stems : List String)
       (fe : Option String) (u : String),
      (resolveStems present stems fe).1 = some u →
        ∃ stem ∈ stems, ∃ e ∈ ALLOWED_EXTS, ∃ f : FileEntry,
          dget present (pyLower (stem ++ e)) = some f ∧
          encode_image_to_data_url f = some u) ∧
    (∀ (files : List FileEntry) (kv : String × List String),
      kv ∈ METRIC_ALIASES → kv.1 ≠ "CM_N" →
      dget (buildConfigImages files) (kv.2.headD "" ++ primaryExt) =
        some (ImageVal.single (resolveStems (mkPresent files) kv.2 none).1)) ∧
    (∀ dir : DirNode, (collect_config_images dir).length =
      (dir.subdirs.filter (fun p => pyEndsWith p.name "_config")).length) ∧
    (dget (buildConfigImages
        [⟨"p_curve.png", none⟩, ⟨"r_curve.png", some "R"⟩]) "p_curve.png" =
          some (ImageVal.single none) ∧
     dget (buildConfigImages
        [⟨"p_curve.png", none⟩, ⟨"r_curve.png", some "R"⟩]) "r_curve.png" =
          some (ImageVal.single (some "data:image/png;base64,R"))) := by
  refine ⟨?_, buildConfigImages_canonical_eq, collect_config_images_length,
    by decide, by decide⟩
  intro present stems fe u h
  exact resolveStems_url_origin present stems fe u h

/-- Witness for C9: the unreadable `p_curve.png` leaves metric P absent in
the record while resolution continued to metric R. -/
theorem read_failure_recovery_witness :
    dget (buildConfigImages [⟨"p_curve.png", none⟩, ⟨"r_curve.png", some "R"⟩])
      ("p_curve" ++ primaryExt) = some (ImageVal.single none) := by
  have h := read_failure_recovery.2.1
    [⟨"p_curve.png", none⟩, ⟨"r_curve.png", some "R"⟩]
    ("P", aliasStems "P") (by decide) (by decide)
  have h2 : dget (buildConfigImages
      [⟨"p_curve.png", none⟩, ⟨"r_curve.png", some "R"⟩])
      ("p_curve" ++ primaryExt) =
      some (ImageVal.single (resolveStems
        (mkPresent [⟨"p_curve.png", none⟩, ⟨"r_curve.png", some "R"⟩])
        (aliasStems "P") none).1) := h
  rw [h2]
  decide

/-! ## Injectivity of the decimal representation used for `batch_N` keys -/

theorem decChars_low (n : Nat) (h : n < 10) :
    decChars n = [Nat.digitChar n] := by
  rw [decChars, dif_pos h]

theorem decChars_high (n : Nat) (h : ¬n < 10) :
    decChars n = decChars (n / 10) ++ [Nat.digitChar (n % 10)] := by
  rw [decChars, dif_neg h]

theorem toDigitsCore_succ (base fuel n : Nat) (acc : List Char) :
    Nat.toDigitsCore base (fuel + 1) n acc =
      if n / base = 0 then (n % base).digitChar :: acc
      else Nat.toDigitsCore base fuel (n / base) ((n % base).digitChar :: acc) := by
  rfl

theorem toDigitsCore_eq_decChars :
    ∀ (fuel n : Nat) (acc : List Char), n < fuel →
      Nat.toDigitsCore 10 fuel n acc = decChars n ++ acc := by
  intro fuel
  induction fuel with
  | zero =>
    intro n acc h
    exact absurd h (Nat.not_lt_zero n)
  | succ fuel ih =>
    intro n acc h
    rw [toDigitsCore_succ]
    by_cases h10 : n / 10 = 0
    · rw [if_pos h10]
      have hn : n < 10 := by omega
      rw [decChars_low n hn, Nat.mod_eq_of_lt hn]
      rfl
    · rw [if_neg h10]
      have hlt : n / 10 < fuel := by
        have h1 : 0 < n := by omega
        have h2 : n / 10 < n := Nat.div_lt_self h1 (by norm_num)
        omega
      rw [ih (n / 10) _ hlt]
      have hn : ¬n < 10 := by omega
      rw [decChars_high n hn]
      simp

theorem natRepr_data_eq_decChars (n : Nat) : (Nat.repr n).data = decChars n := by
  have h := toDigitsCore_eq_decChars (n + 1) n [] (Nat.lt_succ_self n)
  calc (Nat.repr n).data = Nat.toDigitsCore 10 (n + 1) n [] := rfl
    _ = decChars n ++ [] := h
    _ = decChars n := by simp

theorem decChars_ne_nil (n : Nat) : decChars n ≠ [] := by
  by_cases h : n < 10
  · rw [decChars_low n h]
    simp
  · rw [decChars_high n h]
    simp

theorem decChars_len_ge_two (n : Nat) (h : ¬n < 10) :
    2 ≤ (decChars n).length := by
  rw [decChars_high n h]
  have h1 : 0 < (decChars (n / 10)).length :=
    List.length_pos.mpr (decChars_ne_nil (n / 10))
  simp only [List.length_append, List.length_cons, List.length_nil]
  omega

theorem digitChar_inj_lt (a b : Nat) (ha : a < 10) (hb : b < 10)
    (h : Nat.digitChar a = Nat.digitChar b) : a = b := by
  have hd : ∀ a, a < 10 → ∀ b, b < 10 →
      Nat.digitChar a = Nat.digitChar b → a = b := by decide
  exact hd a ha b hb h

theorem decChars_inj : ∀ m n : Nat, decChars m = decChars n → m = n := by
  intro m
  induction m using Nat.strong_induction_on with
  | _ m ih =>
    intro n h
    by_cases hm : m < 10 <;> by_cases hn : n < 10
    · rw [decChars_low m hm, decChars_low n hn] at h
      injection h with h1 _
      exact digitChar_inj_lt m n hm hn h1
    · exfalso
      have h1 := congrArg List.length h
      rw [decChars_low m hm] at h1
      have h2 := decChars_len_ge_two n hn
      simp at h1
      omega
    · exfalso
      have h1 := congrArg List.length h
      rw [decChars_low n hn] at h1
      have h2 := decChars_len_ge_two m hm
      simp at h1
      omega
    · rw [decChars_high m hm, decChars_high n hn] at h
      obtain ⟨h1, h2⟩ := List.append_inj' h (by simp)
      have hdiv : m / 10 < m := by
        have h3 : 0 < m := by omega
        exact Nat.div_lt_self h3 (by norm_num)
      have h3 : m / 10 = n / 10 := ih (m / 10) hdiv (n / 10) h1
      injection h2 with h4 _
      have h5 : m % 10 = n % 10 :=
        digitChar_inj_lt _ _ (Nat.mod_lt _ (by norm_num))
          (Nat.mod_lt _ (by norm_num)) h4
      omega

theorem nat_repr_inj (m n : Nat) (h : Nat.repr m = Nat.repr n) : m = n := by
  apply decChars_inj
  rw [← natRepr_data_eq_decChars, ← natRepr_data_eq_decChars, h]

/-! ## The sequential regrouping of galleries -/

theorem batch_key_inj (i j : Nat)
    (h : "batch_" ++ Nat.repr i = "batch_" ++ Nat.repr j) : i = j :=
  nat_repr_inj i j (string_append_left_cancel _ _ _ h)

theorem seqFrom_keys (xs : List String) :
    ∀ (off : Nat), ∀ k ∈ (seqFrom off xs).map Prod.fst,
      ∃ i, off + 1 ≤ i ∧ i ≤ off + xs.length ∧ k = "batch_" ++ Nat.repr i := by
  induction xs with
  | nil => intro off k hk; simp [seqFrom] at hk
  | cons x xs ih =>
    intro off k hk
    rw [seqFrom] at hk
    simp only [List.map_cons, List.mem_cons] at hk
    rcases hk with hk | hk
    · exact ⟨off + 1, le_refl _, by simp, hk⟩
    · obtain ⟨i, h1, h2, h3⟩ := ih (off + 1) k hk
      refine ⟨i, by omega, by simp only [List.length_cons]; omega, h3⟩

theorem seqFrom_length (xs : List String) :
    ∀ off : Nat, (seqFrom off xs).length = xs.length := by
  induction xs with
  | nil => intro off; rfl
  | cons x xs ih =>
    intro off
    rw [seqFrom]
    simp [ih (off + 1)]

theorem seqFrom_singletons (xs : List String) :
    ∀ off : Nat, ∀ e ∈ seqFrom off xs, ∃ x, e.2 = [x] := by
  induction xs with
  | nil => intro off e he; simp [seqFrom] at he
  | cons x xs ih =>
    intro off e he
    rw [seqFrom] at he
    rcases List.mem_cons.mp he with he | he
    · exact ⟨x, by rw [he]⟩
    · exact ih (off + 1) e he

theorem seqFrom_keys_nodup (xs : List String) :
    ∀ off : Nat, ((seqFrom off xs).map Prod.fst).Nodup := by
  induction xs with
  | nil => intro off; simp [seqFrom]
  | cons x xs ih =>
    intro off
    rw [seqFrom]
    simp only [List.map_cons, List.nodup_cons]
    refine ⟨?_, ih (off + 1)⟩
    intro hmem
    obtain ⟨i, h1, h2, h3⟩ := seqFrom_keys xs (off + 1) _ hmem
    have h4 := batch_key_inj _ _ h3
    omega

theorem regroupBatches_eq_seqFrom (xs : List String) :
    regroupBatches xs = seqFrom 0 xs := by
  suffices hgen : ∀ (ys : List String) (m : List (String × List String)),
      (∀ k ∈ m.map Prod.fst,
        ∃ i, 1 ≤ i ∧ i ≤ m.length ∧ k = "batch_" ++ Nat.repr i) →
      ys.foldl (fun m item =>
          setdefaultAppend m ("batch_" ++ Nat.repr (m.length + 1)) item) m =
        m ++ seqFrom m.length ys by
    have h := hgen xs [] (by simp)
    simpa [regroupBatches] using h
  intro ys
  induction ys with
  | nil => intro m _; simp [seqFrom]
  | cons x xs ih =>
    intro m hm
    rw [List.foldl_cons]
    have hfresh : ("batch_" ++ Nat.repr (m.length + 1)) ∉ m.map Prod.fst := by
      intro hmem
      obtain ⟨i, h1, h2, h3⟩ := hm _ hmem
      have h4 := batch_key_inj _ _ h3
      omega
    have hsd : setdefaultAppend m ("batch_" ++ Nat.repr (m.length + 1)) x =
        m ++ [("batch_" ++ Nat.repr (m.length + 1), [x])] := by
      rw [setdefaultAppend, dget_none_of_not_mem_keys _ _ hfresh]
    rw [hsd, ih (m ++ [("batch_" ++ Nat.repr (m.length + 1), [x])]) ?inv]
    · rw [seqFrom]
      simp [List.append_assoc]
    case inv =>
      intro k hk
      rw [List.map_append] at hk
      rcases List.mem_append.mp hk with hk | hk
      · obtain ⟨i, h1, h2, h3⟩ := hm _ hk
        refine ⟨i, h1, ?_, h3⟩
        simp only [List.length_append, List.length_cons, List.length_nil]
        omega
      · simp only [List.map_cons, List.map_nil, List.mem_singleton] at hk
        refine ⟨m.length + 1, by omega, ?_, hk⟩
        simp only [List.length_append, List.length_cons, List.length_nil]
        omega

theorem regroupBatches_ne_nil (xs : List String) (h : xs ≠ []) :
    regroupBatches xs ≠ [] := by
  rw [regroupBatches_eq_seqFrom]
  cases xs with
  | nil => exact absurd rfl h
  | cons x xs => rw [seqFrom]; simp

/-! ## Characterisation of the gallery classification -/

theorem classifyGalleries_labels (present : List (String × FileEntry)) :
    (classifyGalleries present).1 = labeledOf present := by
  suffices hgen : ∀ (l : List (String × FileEntry))
      (acc : List String × List String × List String),
      (l.foldl stepClassify acc).1 = acc.1 ++ labeledOf l by
    have h := hgen present ([], [], [])
    simpa [classifyGalleries] using h
  intro l
  induction l with
  | nil => intro acc; simp [labeledOf]
  | cons p l ih =>
    intro acc
    rw [List.foldl_cons, ih (stepClassify acc p)]
    by_cases c1 : (ALLOWED_EXTS.any (fun ext => pyEndsWith p.1 ext)) = true
    · rcases h2 : encode_image_to_data_url p.2 with _ | url
      · have hstep : stepClassify acc p = acc := by
          simp [stepClassify, c1, h2]
        have hlab : labeledOf (p :: l) = labeledOf l := by
          simp only [labeledOf, List.filterMap_cons, c1, h2,
            eq_self_iff_true, if_true]
        rw [hstep, hlab]
      · by_cases c2 : (pyStartsWith (pyLower p.1) "val_batch" &&
            pyContains (pyLower p.1) "_labels") = true
        · have hstep : stepClassify acc p = (acc.1 ++ [url], acc.2.1, acc.2.2) := by
            simp [stepClassify, c1, h2, c2]
          have hlab : labeledOf (p :: l) = url :: labeledOf l := by
            simp only [labeledOf, List.filterMap_cons, c1, h2, c2,
              eq_self_iff_true, if_true]
          rw [hstep, hlab]
          simp
        · have hstep1 : (stepClassify acc p).1 = acc.1 := by
            by_cases c3 : (pyStartsWith (pyLower p.1) "val_batch" &&
                pyContains (pyLower p.1) "_pred") = true
            · simp [stepClassify, c1, h2, c2, c3]
            · simp [stepClassify, c1, h2, c2, c3]
          have hlab : labeledOf (p :: l) = labeledOf l := by
            simp only [labeledOf, List.filterMap_cons, c1, h2, c2,
              eq_self_iff_true, if_true, Bool.false_eq_true, if_false]
          rw [hstep1, hlab]
    · have c1f : (ALLOWED_EXTS.any (fun ext => pyEndsWith p.1 ext)) = false := by
        rwa [Bool.not_eq_true] at c1
      have hstep : stepClassify acc p = acc := by
        simp [stepClassify, c1f]
      have hlab : labeledOf (p :: l) = labeledOf l := by
        simp only [labeledOf, List.filterMap_cons, c1f, Bool.false_eq_true,
          if_false]
      rw [hstep, hlab]

theorem buildConfigImages_val_labels (files : List FileEntry) :
    dget (buildConfigImages files) "VAL_LABELS" =
      (if (classifyGalleries (mkPresent files)).1 = [] then none
       else some (ImageVal.catGallery
         (regroupBatches (classifyGalleries (mkPresent files)).1))) := by
  have hVLVP : ("VAL_LABELS" : String) ≠ "VAL_PRED" := by decide
  have hbase : dget (applyCmFallback (resolveAllMetrics (mkPresent files)))
      "VAL_LABELS" = none := by
    rw [applyCmFallback_other _ _ (by decide)]
    apply resolveAllMetrics_other
    intro kv h e he
    exact (metric_keys_not_gallery kv h e he).1.symm
  simp only [buildConfigImages, addGalleries]
  by_cases c2 : (classifyGalleries (mkPresent files)).2.1 ≠ []
  · rw [if_pos c2, dget_dinsert_ne _ _ _ _ hVLVP]
    by_cases c1 : (classifyGalleries (mkPresent files)).1 ≠ []
    · rw [if_pos c1, if_pos (regroupBatches_ne_nil _ c1), dget_dinsert_self,
        if_neg c1]
    · have c1e : (classifyGalleries (mkPresent files)).1 = [] := by
        rwa [not_not] at c1
      rw [if_neg c1, hbase, if_pos c1e]
  · rw [if_neg c2]
    by_cases c1 : (classifyGalleries (mkPresent files)).1 ≠ []
    · rw [if_pos c1, if_pos (regroupBatches_ne_nil _ c1), dget_dinsert_self,
        if_neg c1]
    · have c1e : (classifyGalleries (mkPresent files)).1 = [] := by
        rwa [not_not] at c1
      rw [if_neg c1, hbase, if_pos c1e]

/-! # Claim theorem: gallery classification and regrouping (C5) -/

/-- C5: the labeled gallery collects exactly the readable image files whose
lowercased name starts with `val_batch` and contains `_labels`, in encounter
order (conjunct 1); the labels rule is tested first — a qualifying file is
appended to the labeled gallery even when its name also contains `_pred`
(conjunct 2) — and a file failing it but containing `_pred` goes to the
predicted gallery (conjunct 3); each non-empty gallery is regrouped under
synthetic sequential keys `batch_1, batch_2, …` in encounter order
(conjunct 4), so `n` classified files yield `n` keys (conjunct 5), all
distinct (conjunct 6), each holding exactly one image (conjunct 7); the
record exposes the regrouped labeled gallery under `VAL_LABELS` whenever it
is non-empty (conjunct 8); two `val_batch` label files are never merged
under one key (conjunct 9). -/
theorem gallery_classification_spec :
    (∀ present : List (String × FileEntry),
      (classifyGalleries present).1 = labeledOf present) ∧
    (∀ (acc : List String × List String × List String)
       (p : String × FileEntry) (url : String),
      (ALLOWED_EXTS.any (fun ext => pyEndsWith p.1 ext)) = true →
      encode_image_to_data_url p.2 = some url →
      (pyStartsWith (pyLower p.1) "val_batch" &&
        pyContains (pyLower p.1) "_labels") = true →
      stepClassify acc p = (acc.1 ++ [url], acc.2.1, acc.2.2)) ∧
    (∀ (acc : List String × List String × List String)
       (p : String × FileEntry) (url : String),
      (ALLOWED_EXTS.any (fun ext => pyEndsWith p.1 ext)) = true →
      encode_image_to_data_url p.2 = some url →
      (pyStartsWith (pyLower p.1) "val_batch" &&
        pyContains (pyLower p.1) "_labels") = false →
      (pyStartsWith (pyLower p.1) "val_batch" &&
        pyContains (pyLower p.1) "_pred") = true →
      stepClassify acc p = (acc.1, acc.2.1 ++ [url], acc.2.2)) ∧
    (∀ xs : List String, regroupBatches xs = seqFrom 0 xs) ∧
    (∀ xs : List String, (seqFrom 0 xs).length = xs.length) ∧
    (∀ xs : List String, ((seqFrom 0 xs).map Prod.fst).Nodup) ∧
    (∀ xs : List String, ∀ e ∈ seqFrom 0 xs, ∃ x, e.2 = [x]) ∧
    (∀ files : List FileEntry,
      dget (buildConfigImages files) "VAL_LABELS" =
        (if (classifyGalleries (mkPresent files)).1 = [] then none
         else some (ImageVal.catGallery
           (regroupBatches (classifyGalleries (mkPresent files)).1)))) ∧
    dget (buildConfigImages
        [⟨"val_batch0_labels.jpg", some "L0"⟩,
         ⟨"val_batch1_labels.jpg", some "L1"⟩]) "VAL_LABELS" =
      some (ImageVal.catGallery
        [("batch_1", ["data:image/jpeg;base64,L0"]),
         ("batch_2", ["data:image/jpeg;base64,L1"])]) := by
  refine ⟨classifyGalleries_labels, ?_, ?_, regroupBatches_eq_seqFrom,
    fun xs => seqFrom_length xs 0, fun xs => seqFrom_keys_nodup xs 0,
    fun xs => seqFrom_singletons xs 0, buildConfigImages_val_labels,
    by decide⟩
  · intro acc p url h1 h2 h3
    simp [stepClassify, h1, h2, h3]
  · intro acc p url h1 h2 h3 h4
    simp [stepClassify, h1, h2, h3, h4]

/-- Witness for C5: a file whose name contains both `_labels` and `_pred`
is appended to the labeled gallery (the labels rule is tested first). -/
theorem gallery_classification_spec_witness :
    stepClassify ([], [], [])
        ("val_batch0_labels_pred.jpg",
         ⟨"val_batch0_labels_pred.jpg", some "X"⟩) =
      (["data:image/jpeg;base64,X"], [], []) := by
  have h := gallery_classification_spec.2.1 ([], [], [])
    ("val_batch0_labels_pred.jpg", ⟨"val_batch0_labels_pred.jpg", some "X"⟩)
    "data:image/jpeg;base64,X" (by decide) (by decide) (by decide)
  simpa using h

/-! ## Which keys the record can ever hold -/

theorem mem_keys_dinsert {α : Type} (m : List (String × α)) (k : String)
    (v : α) (x : String) (h : x ∈ (dinsert m k v).map Prod.fst) :
    x ∈ m.map Prod.fst ∨ x = k := by
  rw [keys_dinsert] at h
  by_cases h2 : (dget m k).isSome
  · rw [if_pos h2] at h
    exact Or.inl h
  · rw [if_neg h2] at h
    rcases List.mem_append.mp h with h3 | h3
    · exact Or.inl h3
    · exact Or.inr (List.mem_singleton.mp h3)

theorem keys_storeMetric (present : List (String × FileEntry))
    (images : List (String × ImageVal)) (stems : List String) (x : String)
    (h : x ∈ (storeMetric present images stems).map Prod.fst) :
    x ∈ images.map Prod.fst ∨ ∃ e ∈ ALLOWED_EXTS, x = stems.headD "" ++ e := by
  simp only [storeMetric] at h
  rcases h2 : (resolveStems present stems none).2 with _ | fext
  · rw [h2] at h
    rcases mem_keys_dinsert _ _ _ _ h with h3 | h3
    · exact Or.inl h3
    · exact Or.inr ⟨primaryExt, primaryExt_mem, h3⟩
  · rw [h2] at h
    dsimp only at h
    have hfx : fext ∈ ALLOWED_EXTS := by
      rcases resolveStems_ext_mem present stems none fext h2 with h3 | h3
      · exact h3
      · simp at h3
    by_cases h3 : fext ≠ primaryExt
    · rw [if_pos h3] at h
      rcases mem_keys_dinsert _ _ _ _ h with h4 | h4
      · rcases mem_keys_dinsert _ _ _ _ h4 with h5 | h5
        · exact Or.inl h5
        · exact Or.inr ⟨primaryExt, primaryExt_mem, h5⟩
      · exact Or.inr ⟨fext, hfx, h4⟩
    · rw [if_neg h3] at h
      rcases mem_keys_dinsert _ _ _ _ h with h4 | h4
      · exact Or.inl h4
      · exact Or.inr ⟨primaryExt, primaryExt_mem, h4⟩

theorem keys_resolveAllMetrics (present : List (String × FileEntry))
    (x : String) (h : x ∈ (resolveAllMetrics present).map Prod.fst) :
    ∃ kv ∈ METRIC_ALIASES, ∃ e ∈ ALLOWED_EXTS, x = kv.2.headD "" ++ e := by
  rw [resolveAllMetrics] at h
  suffices hgen : ∀ (table : List (String × List String))
      (images : List (String × ImageVal)),
      x ∈ ((table.foldl (fun imgs kv => storeMetric present imgs kv.2)
          images).map Prod.fst) →
      x ∈ images.map Prod.fst ∨
        ∃ kv ∈ table, ∃ e ∈ ALLOWED_EXTS, x = kv.2.headD "" ++ e by
    rcases hgen METRIC_ALIASES [] h with h2 | h2
    · simp at h2
    · exact h2
  intro table
  induction table with
  | nil => intro images h2; exact Or.inl h2
  | cons kv rest ih =>
    intro images h2
    rw [List.foldl_cons] at h2
    rcases ih _ h2 with h3 | h3
    · rcases keys_storeMetric present images kv.2 x h3 with h4 | h4
      · exact Or.inl h4
      · obtain ⟨e, he, hx⟩ := h4
        exact Or.inr ⟨kv, List.mem_cons_self _ _, e, he, hx⟩
    · obtain ⟨kv2, hkv2, e, he, hx⟩ := h3
      exact Or.inr ⟨kv2, List.mem_cons_of_mem _ hkv2, e, he, hx⟩

theorem keys_applyCmFallback (images : List (String × ImageVal)) (x : String)
    (h : x ∈ (applyCmFallback images).map Prod.fst) :
    x ∈ images.map Prod.fst ∨ x = cmn_key := by
  rw [applyCmFallback] at h
  by_cases hc : (getIsNone images cmn_key && !getIsNone images cm_key) = true
  · rw [if_pos hc] at h
    rcases h2 : dget images cm_key with _ | v
    · rw [h2] at h
      exact Or.inl h
    · rw [h2] at h
      exact mem_keys_dinsert _ _ _ _ h
  · rw [if_neg hc] at h
    exact Or.inl h

theorem keys_addGalleries (present : List (String × FileEntry))
    (images : List (String × ImageVal)) (x : String)
    (h : x ∈ (addGalleries present images).map Prod.fst) :
    x ∈ images.map Prod.fst ∨ x = "VAL_LABELS" ∨ x = "VAL_PRED" := by
  simp only [addGalleries] at h
  by_cases c2 : (classifyGalleries present).2.1 ≠ []
  · rw [if_pos c2] at h
    rcases mem_keys_dinsert _ _ _ _ h with h2 | h2
    · by_cases c1 : (classifyGalleries present).1 ≠ []
      · rw [if_pos c1] at h2
        rcases mem_keys_dinsert _ _ _ _ h2 with h3 | h3
        · exact Or.inl h3
        · exact Or.inr (Or.inl h3)
      · rw [if_neg c1] at h2
        exact Or.inl h2
    · exact Or.inr (Or.inr h2)
  · rw [if_neg c2] at h
    by_cases c1 : (classifyGalleries present).1 ≠ []
    · rw [if_pos c1] at h
      rcases mem_keys_dinsert _ _ _ _ h with h2 | h2
      · exact Or.inl h2
      · exact Or.inr (Or.inl h2)
    · rw [if_neg c1] at h
      exact Or.inl h

/-! # Claim theorem: the GENERIC gallery is computed but dropped (C6) -/

/-- C6 (code bug): every readable image file matching neither `val_batch`
rule is appended to the internal generic gallery list `all_imgs`
(conjunct 1 shows this at the failing input `results_plot.png`), but —
contrary to the claim and to the interactive re-implementation embedded in
the same source file, which stores it under `ALL_IMAGES` — the
configuration record never exposes it: at the failing input the record
holds only the six absent metric markers (conjunct 2), and in general every
key the record can hold is a metric key or one of the two `val_batch`
gallery tags, never a generic-gallery key (conjunct 3). -/
theorem generic_gallery_dropped :
    genericGallery [⟨"results_plot.png", some "X"⟩] =
      ["data:image/png;base64,X"] ∧
    buildConfigImages [⟨"results_plot.png", some "X"⟩] =
      [("pr_curve.png", ImageVal.single none),
       ("p_curve.png", ImageVal.single none),
       ("r_curve.png", ImageVal.single none),
       ("f1_curve.png", ImageVal.single none),
       ("confusion_matrix.png", ImageVal.single none),
       ("confusion_matrix_normalized.png", ImageVal.single none)] ∧
    (∀ (files : List FileEntry) (k : String),
      dget (buildConfigImages files) k = none ∨
        (∃ kv ∈ METRIC_ALIASES, ∃ e ∈ ALLOWED_EXTS, k = kv.2.headD "" ++ e) ∨
        k = "VAL_LABELS" ∨ k = "VAL_PRED") := by
  refine ⟨by decide, by decide, ?_⟩
  intro files k
  by_cases h : dget (buildConfigImages files) k = none
  · exact Or.inl h
  · right
    have hk : k ∈ (buildConfigImages files).map Prod.fst := by
      by_contra h2
      exact h (dget_none_of_not_mem_keys _ _ h2)
    have h2 : k ∈ (applyCmFallback (resolveAllMetrics
        (mkPresent files))).map Prod.fst ∨
        k = "VAL_LABELS" ∨ k = "VAL_PRED" :=
      keys_addGalleries _ _ k hk
    rcases h2 with h2 | h2
    · rcases keys_applyCmFallback _ k h2 with h3 | h3
      · exact Or.inl (keys_resolveAllMetrics _ k h3)
      · refine Or.inl ⟨("CM_N", aliasStems "CM_N"), by decide,
          primaryExt, primaryExt_mem, ?_⟩
        exact h3
    · exact Or.inr h2

/-! ## Ordering lemmas for the stable sort -/

theorem lexLe_total : ∀ a b : List Char, (lexLe a b || lexLe b a) = true := by
  intro a
  induction a with
  | nil => intro b; simp [lexLe]
  | cons x xs ih =>
    intro b
    cases b with
    | nil => simp [lexLe]
    | cons y ys =>
      rw [lexLe, lexLe]
      by_cases h : x = y
      · subst h
        rw [if_pos rfl, if_pos rfl]
        exact ih ys
      · rw [if_neg h, if_neg (fun h2 => h h2.symm)]
        rcases lt_or_gt_of_ne h with h2 | h2
        · simp [h2]
        · simp [le_of_lt h2, h2]

theorem lexLe_trans : ∀ a b c : List Char, lexLe a b = true →
    lexLe b c = true → lexLe a c = true := by
  intro a
  induction a with
  | nil => intro b c _ _; rfl
  | cons x xs ih =>
    intro b c h1 h2
    cases b with
    | nil => rw [lexLe] at h1; simp at h1
    | cons y ys =>
      cases c with
      | nil => rw [lexLe] at h2; simp at h2
      | cons z zs =>
        rw [lexLe] at h1 h2 ⊢
        by_cases hxy : x = y
        · subst hxy
          rw [if_pos rfl] at h1
          by_cases hyz : x = z
          · subst hyz
            rw [if_pos rfl] at h2 ⊢
            exact ih ys zs h1 h2
          · rw [if_neg hyz] at h2 ⊢
            exact h2
        · rw [if_neg hxy] at h1
          have hlt1 : x < y := of_decide_eq_true h1
          by_cases hyz : y = z
          · subst hyz
            rw [if_neg hxy]
            exact h1
          · rw [if_neg hyz] at h2
            have hlt2 : y < z := of_decide_eq_true h2
            have hlt3 : x < z := lt_trans hlt1 hlt2
            rw [if_neg (ne_of_lt hlt3)]
            exact decide_eq_true hlt3

theorem insertLe_mem {α : Type} (le : α → α → Bool) (x : α) :
    ∀ (l : List α) (y : α), y ∈ insertLe le x l ↔ y = x ∨ y ∈ l := by
  intro l
  induction l with
  | nil => intro y; simp [insertLe]
  | cons z zs ih =>
    intro y
    rw [insertLe]
    by_cases h : le z x = true
    · rw [if_pos h]
      simp only [List.mem_cons, ih y]
      tauto
    · rw [if_neg h]
      simp only [List.mem_cons]

theorem insertLe_pairwise {α : Type} (le : α → α → Bool)
    (htot : ∀ a b : α, (le a b || le b a) = true)
    (htrans : ∀ a b c : α, le a b = true → le b c = true → le a c = true)
    (x : α) :
    ∀ l : List α, l.Pairwise (fun a b => le a b = true) →
      (insertLe le x l).Pairwise (fun a b => le a b = true) := by
  intro l
  induction l with
  | nil => intro _; simp [insertLe]
  | cons y ys ih =>
    intro h
    rcases List.pairwise_cons.mp h with ⟨hy, hys⟩
    rw [insertLe]
    by_cases hle : le y x = true
    · rw [if_pos hle]
      refine List.pairwise_cons.mpr ⟨?_, ih hys⟩
      intro z hz
      rcases (insertLe_mem le x ys z).mp hz with h2 | h2
      · rw [h2]; exact hle
      · exact hy z h2
    · rw [if_neg hle]
      have hxy : le x y = true := by
        have h2 : le y x = true ∨ le x y = true := by
          simpa [Bool.or_eq_true] using htot y x
        rcases h2 with h2 | h2
        · exact absurd h2 hle
        · exact h2
      refine List.pairwise_cons.mpr ⟨?_, h⟩
      intro z hz
      rcases List.mem_cons.mp hz with h2 | h2
      · rw [h2]; exact hxy
      · exact htrans x y z hxy (hy z h2)

theorem sortByLe_pairwise {α : Type} (le : α → α → Bool)
    (htot : ∀ a b : α, (le a b || le b a) = true)
    (htrans : ∀ a b c : α, le a b = true → le b c = true → le a c = true)
    (l : List α) :
    (sortByLe le l).Pairwise (fun a b => le a b = true) := by
  suffices hgen : ∀ acc : List α, acc.Pairwise (fun a b => le a b = true) →
      (l.foldl (fun acc x => insertLe le x acc) acc).Pairwise
        (fun a b => le a b = true) by
    exact hgen [] (by simp)
  induction l with
  | nil => intro acc h; exact h
  | cons x xs ih =>
    intro acc h
    rw [List.foldl_cons]
    exact ih _ (insertLe_pairwise le htot htrans x acc h)

theorem sortByLe_mem {α : Type} (le : α → α → Bool) (l : List α) (y : α) :
    y ∈ sortByLe le l ↔ y ∈ l := by
  suffices hgen : ∀ acc : List α,
      (y ∈ l.foldl (fun acc x => insertLe le x acc) acc ↔
        y ∈ acc ∨ y ∈ l) by
    have h := hgen []
    simpa [sortByLe] using h
  induction l with
  | nil => intro acc; simp
  | cons x xs ih =>
    intro acc
    rw [List.foldl_cons, ih (insertLe le x acc)]
    rw [insertLe_mem le x acc y]
    simp only [List.mem_cons]
    tauto

theorem insertLe_perm {α : Type} (le : α → α → Bool) (x : α) :
    ∀ l : List α, (insertLe le x l).Perm (x :: l) := by
  intro l
  induction l with
  | nil => exact List.Perm.refl _
  | cons y ys ih =>
    rw [insertLe]
    by_cases h : le y x = true
    · rw [if_pos h]
      exact (ih.cons y).trans (List.Perm.swap x y ys)
    · rw [if_neg h]

theorem sortByLe_perm {α : Type} (le : α → α → Bool) (l : List α) :
    (sortByLe le l).Perm l := by
  suffices hgen : ∀ acc : List α,
      (l.foldl (fun acc x => insertLe le x acc) acc).Perm (acc ++ l) by
    have h := hgen []
    simpa [sortByLe] using h
  induction l with
  | nil => intro acc; simp
  | cons x xs ih =>
    intro acc
    rw [List.foldl_cons]
    refine (ih (insertLe le x acc)).trans ?_
    refine (List.Perm.append_right xs (insertLe_perm le x acc)).trans ?_
    exact (List.perm_middle).symm

/-! ## Facts about `discover_runs` -/

theorem is_run_dir_iff_configs (p : DirNode) :
    is_run_dir p = true ↔ collect_config_images p ≠ [] := by
  constructor
  · intro h h2
    obtain ⟨c, hc, he⟩ := List.any_eq_true.mp h
    have hmem : c ∈ p.subdirs.filter (fun q => pyEndsWith q.name "_config") :=
      List.mem_filter.mpr ⟨hc, he⟩
    have h4 := List.length_pos.mpr (List.ne_nil_of_mem hmem)
    have h6 : (collect_config_images p).length = 0 := by
      rw [h2]
      rfl
    rw [collect_config_images_length] at h6
    omega
  · intro h
    have h1 : 0 < (collect_config_images p).length :=
      List.length_pos.mpr h
    rw [collect_config_images_length] at h1
    have h2 : p.subdirs.filter (fun q => pyEndsWith q.name "_config") ≠ [] := by
      intro h3
      rw [h3] at h1
      simp at h1
    obtain ⟨c, hc⟩ := List.exists_mem_of_ne_nil _ h2
    have h3 := List.mem_filter.mp hc
    exact List.any_eq_true.mpr ⟨c, h3.1, h3.2⟩

theorem discover_runs_fold_invariant
    (candidates : List (String × String × DirNode)) :
    ∀ acc : List String × List RunGroup,
      (∀ rg ∈ acc.2, rg.configs ≠ [] ∧ rg.run_path ∈ acc.1) →
      (acc.2.map RunGroup.run_path).Nodup →
      (∀ rg ∈ (candidates.foldl discoverStep acc).2, rg.configs ≠ []) ∧
      (((candidates.foldl discoverStep acc).2.map RunGroup.run_path).Nodup) := by
  induction candidates with
  | nil =>
    intro acc hinv hnd
    exact ⟨fun rg hrg => (hinv rg hrg).1, hnd⟩
  | cons c rest ih =>
    intro acc hinv hnd
    rw [List.foldl_cons, discoverStep]
    by_cases hseen : c.2.1 ∈ acc.1
    · rw [if_pos hseen]
      exact ih acc hinv hnd
    · rw [if_neg hseen]
      by_cases hcf : collect_config_images c.2.2 ≠ []
      · simp only [if_pos hcf]
        apply ih
        · intro rg hrg
          rcases List.mem_append.mp hrg with h2 | h2
          · obtain ⟨ha, hb⟩ := hinv rg h2
            exact ⟨ha, List.mem_cons_of_mem _ hb⟩
          · rw [List.mem_singleton.mp h2]
            exact ⟨hcf, List.mem_cons_self _ _⟩
        · rw [List.map_append]
          refine hnd.append (by simp) ?_
          intro a ha hb
          simp only [List.map_cons, List.map_nil, List.mem_singleton] at hb
          subst hb
          obtain ⟨rg, hrg, hpath⟩ := List.mem_map.mp ha
          have h3 := (hinv rg hrg).2
          rw [hpath] at h3
          exact hseen h3
      · simp only [if_neg hcf]
        apply ih
        · intro rg hrg
          obtain ⟨ha, hb⟩ := hinv rg hrg
          exact ⟨ha, List.mem_cons_of_mem _ hb⟩
        · exact hnd

/-! # Claim theorem: run discovery (C7) -/

/-- C7: a directory qualifies as a run (`is_run_dir`) exactly when it
resolves at least one configuration, which is the direct-`*_config`-child
test (conjunct 1); every discovered run has a non-empty configuration list —
runs with zero resolved configurations are dropped (conjunct 2); the final
run list is sorted case-insensitively by run name (conjunct 3) and contains
each physical path at most once (conjunct 4); a root directly containing
`A_config/` yields root itself as the single run (conjunct 5); a root
containing `run1/B_config/` and `run2/C_config/` and no direct `_config`
child yields exactly the runs `run1` and `run2`, root absent (conjunct 6). -/
theorem run_discovery_spec :
    (∀ p : DirNode, is_run_dir p = true ↔ collect_config_images p ≠ []) ∧
    (∀ (rootPath : String) (root : DirNode),
      ∀ rg ∈ discover_runs rootPath root, rg.configs ≠ []) ∧
    (∀ (rootPath : String) (root : DirNode),
      (discover_runs rootPath root).Pairwise
        (fun a b => strLe (pyLower a.run_name) (pyLower b.run_name) = true)) ∧
    (∀ (rootPath : String) (root : DirNode),
      ((discover_runs rootPath root).map RunGroup.run_path).Nodup) ∧
    discover_runs "/data"
        (DirNode.node "root" [] [DirNode.node "A_config" [] []]) =
      [⟨"root", "/data", [⟨"A_config", buildConfigImages []⟩]⟩] ∧
    discover_runs "/data"
        (DirNode.node "root" []
          [DirNode.node "run1" [] [DirNode.node "B_config" [] []],
           DirNode.node "run2" [] [DirNode.node "C_config" [] []]]) =
      [⟨"run1", "/data/run1", [⟨"B_config", buildConfigImages []⟩]⟩,
       ⟨"run2", "/data/run2", [⟨"C_config", buildConfigImages []⟩]⟩] := by
  refine ⟨is_run_dir_iff_configs, ?_, ?_, ?_, by decide, by decide⟩
  · intro rootPath root rg hrg
    simp only [discover_runs] at hrg
    rw [sortByLe_mem] at hrg
    exact (discover_runs_fold_invariant _ ([], []) (by simp) (by simp)).1
      rg hrg
  · intro rootPath root
    simp only [discover_runs]
    exact sortByLe_pairwise
      (fun (a b : RunGroup) => strLe (pyLower a.run_name) (pyLower b.run_name))
      (fun a b => lexLe_total _ _)
      (fun a b c h1 h2 => lexLe_trans _ _ _ h1 h2) _
  · intro rootPath root
    simp only [discover_runs]
    have hgen : ∀ runs : List RunGroup,
        (runs.map RunGroup.run_path).Nodup →
        ((sortByLe
          (fun a b => strLe (pyLower a.run_name) (pyLower b.run_name))
          runs).map RunGroup.run_path).Nodup := by
      intro runs h
      have hperm := (sortByLe_perm
        (fun (a b : RunGroup) => strLe (pyLower a.run_name) (pyLower b.run_name))
        runs).map RunGroup.run_path
      exact hperm.nodup_iff.mpr h
    exact hgen _ ((discover_runs_fold_invariant _ ([], []) (by simp) (by simp)).2)

/-- Witness for C7: the discovered run `run1` of the two-run scenario has a
non-empty configuration list. -/
theorem run_discovery_spec_witness :
    (⟨"run1", "/data/run1",
      [⟨"B_config", buildConfigImages []⟩]⟩ : RunGroup).configs ≠ [] := by
  apply run_discovery_spec.2.1 "/data"
    (DirNode.node "root" []
      [DirNode.node "run1" [] [DirNode.node "B_config" [] []],
       DirNode.node "run2" [] [DirNode.node "C_config" [] []]])
  decide
